import Mathlib

set_option maxRecDepth 40000

/-!
Verification development for the notice-linker script
`.github/scripts/add_links_fx_pn.py` of the `legal-docs` repository.

The script is shallowly embedded: file contents are lists of characters,
a file tree is a map from paths (lists of components) to optional contents,
and every function of the script becomes a pure Lean function mirroring the
Python source line by line.  Python `str.splitlines(keepends=True)` is
modelled by `splitlines` below, over the full set of line-boundary
characters recognized by Python.
-/

namespace AddLinks

/-- Text content: a list of characters (Python `str`). -/
abbrev Str := List Char

/-- A filesystem path, as a list of components. -/
abbrev FPath := List String

/-- The single-quote character, kept out of literals. -/
def squote : Char := Char.ofNat 39

/-- The characters Python `str.splitlines` treats as line boundaries
(with carriage-return + line-feed forming a single boundary). -/
def lineBoundaries : List Char :=
  ['\n', '\r', '\x0b', '\x0c', '\x1c', '\x1d', '\x1e', '\x85', ' ', ' ']

/-- Whether a character is a Python line boundary. -/
def isLineBoundary (c : Char) : Bool := lineBoundaries.contains c

/-- The characters Python `str.strip()` removes (Unicode whitespace). -/
def pyWhitespace : List Char :=
  [' ', '\t', '\n', '\r', '\x0b', '\x0c', '\x1c', '\x1d', '\x1e', '\x1f',
   '\x85', '\xa0', ' ', ' ', ' ', ' ', ' ', ' ',
   ' ', ' ', ' ', ' ', ' ', ' ', ' ',
   ' ', ' ', ' ', '　']

/-- Whether a character is Python whitespace. -/
def pyIsSpace (c : Char) : Bool := pyWhitespace.contains c

/-- Python `s.strip()`: remove leading and trailing whitespace. -/
def pyStrip (l : Str) : Str :=
  ((l.dropWhile pyIsSpace).reverse.dropWhile pyIsSpace).reverse

/-- Split off the first line (terminator kept) of a character list,
returning the line and the remainder.  Mirrors one step of Python
`str.splitlines(keepends=True)`. -/
def breakLine : List Char → List Char × List Char
  | [] => ([], [])
  | c :: rest =>
    if c = '\r' then
      if rest.head? = some '\n' then (['\r', '\n'], rest.tail) else (['\r'], rest)
    else if isLineBoundary c then ([c], rest)
    else
      let p := breakLine rest
      (c :: p.1, p.2)

/-- Fuelled worker for `splitlines` (fuel keeps the recursion structural,
so that the kernel can evaluate it). -/
def splitlinesF : Nat → List Char → List (List Char)
  | _, [] => []
  | 0, _ :: _ => []
  | fuel + 1, c :: rest =>
    let p := breakLine (c :: rest)
    p.1 :: splitlinesF fuel p.2

/-- Python `raw.splitlines(keepends=True)`. -/
def splitlines (s : Str) : List Str := splitlinesF s.length s

/-- The anchor text searched for (Python `FIND_ANCHOR = "\x7b: datetime"`,
where `\x7b` is the opening curly brace). -/
def FIND_ANCHOR : Str := Char.ofNat 123 :: ": datetime".data

/-- Python `SCAN_FIRST_N_LINES = 50`. -/
def SCAN_FIRST_N_LINES : Nat := 50

/-- Python substring membership `needle in hay` (executable). -/
def inStr (needle : Str) : Str → Bool
  | [] => needle.isEmpty
  | c :: rest => needle.isPrefixOf (c :: rest) || inStr needle rest

/-- The double-quoted needle `class="NAME"`. -/
def dqNeedle (class_name : Str) : Str :=
  "class=\"".data ++ class_name ++ ['"']

/-- The single-quoted needle, `class=` followed by the name between
single quotes. -/
def sqNeedle (class_name : Str) : Str :=
  "class=".data ++ [squote] ++ class_name ++ [squote]

/-- Mirror of `file_has_class_in_first_lines`: true when any of the first
`n` lines (joined) contains the class attribute with double or single
quotes. -/
def file_has_class_in_first_lines (lines : List Str) (class_name : Str)
    (n : Nat := SCAN_FIRST_N_LINES) : Bool :=
  let haystack := (lines.take n).flatten
  inStr (dqNeedle class_name) haystack || inStr (sqNeedle class_name) haystack

/-- Mirror of `find_anchor_index`: index of the first line containing the
anchor text, else `none`. -/
def find_anchor_index (lines : List Str) (anchor : Str := FIND_ANCHOR) : Option Nat :=
  lines.findIdx? (fun line => inStr anchor line)

/-- The body (without trailing newline) of the link line built by
`build_link_line`. -/
def link_body (class_name href text : Str) : Str :=
  "<a class=\"".data ++ class_name ++ "\" href=\"".data ++ href ++ "\">".data
    ++ text ++ "</a>".data

/-- Mirror of `build_link_line`: the f-string
`<a class="..." href="...">...</a>` followed by a newline. -/
def build_link_line (class_name href text : Str) : Str :=
  link_body class_name href text ++ ['\n']

/-- Mirror of `insert_block_after_index`: after line `idx`, delete the run
of blank (whitespace-only) lines, then splice in a blank line, the link
line (newline-terminated), and another blank line. -/
def insert_block_after_index (lines : List Str) (idx : Nat) (link_line : Str) :
    List Str × Bool :=
  let insert_at := idx + 1
  let kept := lines.take insert_at
  let tail := (lines.drop insert_at).dropWhile (fun line => pyStrip line = [])
  let ll := if link_line.getLast? = some '\n' then link_line else link_line ++ ['\n']
  (kept ++ ['\n'] :: ll :: ['\n'] :: tail, true)

/-- A file tree: which paths are directories, and the text content of each
existing file (decoded, as the script reads it).  Paths are component
lists rooted at the filesystem root. -/
structure FS where
  isDir : FPath → Bool
  read : FPath → Option Str

/-- Overwrite one file with new content (Python `file_path.write_text`). -/
def writeFile (fs : FS) (p : FPath) (t : Str) : FS :=
  ⟨fs.isDir, fun q => if q = p then some t else fs.read q⟩

/-- The four possible outcomes of `ensure_link_in_file` for one file,
determined solely by the file content (`decide_outcome` below). -/
inductive Outcome where
  | skipMissing : Outcome
  | okPresent : Outcome
  | warnNoAnchor : Outcome
  | update : Str → Outcome
deriving DecidableEq

/-- The branch structure of `ensure_link_in_file` as a function of the
(optional) file content: missing file, already linked, anchor absent, or
update with the new full content. -/
def decide_outcome (raw? : Option Str) (class_name href link_text : Str) : Outcome :=
  match raw? with
  | none => .skipMissing
  | some raw =>
    let lines := splitlines raw
    if file_has_class_in_first_lines lines class_name then .okPresent
    else
      match find_anchor_index lines with
      | none => .warnNoAnchor
      | some anchor_idx =>
        let link_line := build_link_line class_name href link_text
        .update (insert_block_after_index lines anchor_idx link_line).1.flatten

/-- Render a path the way the script prints it (components joined by slash). -/
def pathStr (p : FPath) : Str := (String.intercalate "/" p).data

/-- Mirror of `ensure_link_in_file`: returns the file tree after the call,
the `changed` flag and the message.  The write is skipped in dry-run mode. -/
def ensure_link_in_file (fs : FS) (file_path : FPath)
    (class_name href link_text : Str) (dry_run : Bool) : FS × Bool × Str :=
  match decide_outcome (fs.read file_path) class_name href link_text with
  | .skipMissing => (fs, false, "SKIP (missing): ".data ++ pathStr file_path)
  | .okPresent => (fs, false, "OK (already present): ".data ++ pathStr file_path)
  | .warnNoAnchor =>
      (fs, false, "WARN (anchor not found, no change): ".data ++ pathStr file_path)
  | .update c =>
      (if dry_run then fs else writeFile fs file_path c, true,
        (if dry_run then "DRY-RUN would update: " else "UPDATED: ").data
          ++ pathStr file_path)

/-- The write performed by `ensure_link_in_file` (at most one), as a list. -/
def ensure_writes (fs : FS) (file_path : FPath)
    (class_name href link_text : Str) (dry_run : Bool) : List FPath :=
  match decide_outcome (fs.read file_path) class_name href link_text with
  | .update _ => if dry_run then [] else [file_path]
  | _ => []

/-- The two localized strings for one locale. -/
structure LocaleTexts where
  link_to_preview : String
  link_to_current : String
deriving DecidableEq

/-- Mirror of `PRIVACY_NOTICE_LINKS`, in the dictionary insertion order
of the source. -/
def PRIVACY_NOTICE_LINKS : List (String × LocaleTexts) :=
  [("cs", ⟨"Aktualizujeme naše Oznámení o ochraně osobních údajů. Kliknutím sem zobrazíte novou verzi.",
           "Pro zobrazení našeho aktuálního oznámení klikněte sem."⟩),
   ("de", ⟨"Wir aktualisieren unseren Datenschutzhinweis. Klicken Sie hier, um die neue Version anzuzeigen.",
           "Zum Anzeigen unseres aktuellen Hinweises hier klicken."⟩),
   ("en", ⟨"We’re updating our Privacy Notice. Click here to see the new version.",
           "To see our current notice, click here."⟩),
   ("es-ES", ⟨"Estamos actualizando nuestro Aviso de privacidad. Haga clic aquí para ver la nueva versión.",
              "Para ver nuestro aviso corriente, haga clic aquí."⟩),
   ("fr", ⟨"Nous avons mis à jour notre Politique de confidentialité. Cliquez ici pour voir la nouvelle version.",
           "Pour consulter notre politique actuelle, cliquez ici."⟩),
   ("hu", ⟨"Frissítjük az adatvédelmi nyilatkozatunkat. Kattintson ide az új verzió megtekintéséhez.",
           "A jelenlegi nyilatkozat megtekintéséhez kattintson ide."⟩),
   ("id", ⟨"Kami memperbarui Pemberitahuan Privasi kami. Klik di sini untuk melihat versi barunya.",
           "Untuk melihat pemberitahuan terbaru kami, klik di sini."⟩),
   ("it", ⟨"Stiamo aggiornando la nostra Informativa sulla privacy. Fai clic qui per vedere la nuova versione.",
           "Per consultare la nostra attuale informativa, fai clic qui."⟩),
   ("ja", ⟨"プライバシーに関する通知を更新しました。新しいバージョンを表示するには、こちらをクリックしてください。",
           "最新版の通知を表示するには、こちらをクリックします。"⟩),
   ("nl", ⟨"We werken onze privacyverklaring bij. Klik hier om de nieuwe versie te bekijken.",
           "Klik hier als u onze huidige verklaring wilt weergeven."⟩),
   ("pl", ⟨"Aktualizujemy nasze Zasady prywatności. Kliknij tutaj, aby zobaczyć nową wersję.",
           "Aby zobaczyć aktualne Zasady, kliknij tutaj."⟩),
   ("pt-BR", ⟨"Estamos atualizando nosso Aviso de privacidade. Clique aqui para consultar a nova versão.",
              "Clique aqui para acessar nosso aviso atual."⟩),
   ("ru", ⟨"Мы обновляем наше Уведомление о конфиденциальности. Нажмите здесь, чтобы ознакомиться с новой версией.",
           "Для знакомства с нашим текущим уведомлением нажмите здесь."⟩),
   ("zh-CN", ⟨"我们正在更新《隐私声明》。点击此处查看新版本。",
              "如需查看当前声明，请点击此处。"⟩)]

/-- Mirror of `resolve_locale_dir`. -/
def resolve_locale_dir (fs : FS) (root : FPath) (locale : String) : Option FPath :=
  let loc_dir := root ++ [locale]
  if fs.isDir loc_dir then some loc_dir else none

/-- The href of the link inserted into the current notice. -/
def HREF_NEXT : Str := "https://www.mozilla.org/privacy/firefox/next".data

/-- The href of the link inserted into the preview notice. -/
def HREF_CURRENT : Str := "https://www.mozilla.org/privacy/firefox/".data

/-- One file target of the run: path, class name, href and link text. -/
structure Target where
  path : FPath
  cn : Str
  href : Str
  text : Str
deriving DecidableEq

/-- The two file targets of one locale, in processing order (current
notice first, preview second), as wired up in `main`. -/
def localeTargets (root : FPath) (locale : String) (texts : LocaleTexts) : List Target :=
  [⟨root ++ [locale, "firefox_privacy_notice.md"], "link-next-pn".data,
     HREF_NEXT, texts.link_to_preview.data⟩,
   ⟨root ++ [locale, "firefox_privacy_notice_preview.md"], "link-current-pn".data,
     HREF_CURRENT, texts.link_to_current.data⟩]

/-- All targets of a list of table entries, in processing order. -/
def allTargets (root : FPath) (entries : List (String × LocaleTexts)) : List Target :=
  entries.flatMap (fun e => localeTargets root e.1 e.2)

/-- Accumulated observable state of the main loop: final tree, printed
lines in order, checked and changed counters, and the performed writes. -/
structure LoopOut where
  fs : FS
  printed : List Str
  checked : Nat
  changed : Nat
  writes : List FPath

/-- Console line `[<locale>] <msg>`. -/
def reportLine (locale : String) (msg : Str) : Str :=
  ("[" ++ locale ++ "] ").data ++ msg

/-- Process the file targets of one locale in order (the two
`ensure_link_in_file` calls of `main`, with their prints and counters). -/
def filesLoop (fs : FS) (locale : String) (tgs : List Target) (dry : Bool) : LoopOut :=
  match tgs with
  | [] => ⟨fs, [], 0, 0, []⟩
  | tg :: rest =>
    let r := ensure_link_in_file fs tg.path tg.cn tg.href tg.text dry
    let w := ensure_writes fs tg.path tg.cn tg.href tg.text dry
    let out := filesLoop r.1 locale rest dry
    ⟨out.fs, reportLine locale r.2.2 :: out.printed, 1 + out.checked,
      (if r.2.1 then 1 else 0) + out.changed, w ++ out.writes⟩

/-- One iteration of the locale loop of `main`: skip a locale whose
directory is absent, else process its two files. -/
def localeStep (fs : FS) (root : FPath) (locale : String) (texts : LocaleTexts)
    (dry : Bool) : LoopOut :=
  match resolve_locale_dir fs root locale with
  | none => ⟨fs, [("SKIP (locale folder not available): " ++ locale).data], 0, 0, []⟩
  | some _ => filesLoop fs locale (localeTargets root locale texts) dry

/-- The locale loop of `main` over the given table entries. -/
def mainLoop (fs : FS) (root : FPath) (dry : Bool) :
    List (String × LocaleTexts) → LoopOut
  | [] => ⟨fs, [], 0, 0, []⟩
  | e :: rest =>
    let o1 := localeStep fs root e.1 e.2 dry
    let o2 := mainLoop o1.fs root dry rest
    ⟨o2.fs, o1.printed ++ o2.printed, o1.checked + o2.checked,
      o1.changed + o2.changed, o1.writes ++ o2.writes⟩

/-- The final summary line printed by `main` (the print call starts with
a newline, then `Done. Checked: <n> file targets. Changed: <m>.`). -/
def summaryLine (checked changed : Nat) : Str :=
  "\nDone. Checked: ".data ++ (toString checked).data
    ++ " file targets. Changed: ".data ++ (toString changed).data ++ ".".data

/-- The extra notice printed in dry-run mode. -/
def dryNotice : Str := "Dry-run mode: no files were modified.".data

/-- Observable result of one whole run of `main`. -/
structure RunOut where
  exitCode : Nat
  fs : FS
  printed : List Str
  checked : Nat
  changed : Nat
  writes : List FPath

/-- Mirror of `main`: exit code 2 when the root is not an existing
directory (nothing written), else the locale loop over the whole table
followed by the summary prints and exit code 0. -/
def main (fs : FS) (root : FPath) (dry_run : Bool) : RunOut :=
  if fs.isDir root = false then
    ⟨2, fs, ["ERROR: Not a directory: ".data ++ pathStr root], 0, 0, []⟩
  else
    let o := mainLoop fs root dry_run PRIVACY_NOTICE_LINKS
    ⟨0, o.fs, o.printed ++ [summaryLine o.checked o.changed]
        ++ (if dry_run then [dryNotice] else []),
      o.checked, o.changed, o.writes⟩

/-- Whether a byte is a UTF-8 continuation byte. -/
def contByte (b : Nat) : Bool := decide (0x80 ≤ b ∧ b ≤ 0xBF)

/-- Constraint on the first continuation byte of a three-byte sequence
(excludes overlong encodings and surrogates, as strict UTF-8 does). -/
def cont2Ok (b b1 : Nat) : Bool :=
  if b = 0xE0 then decide (0xA0 ≤ b1 ∧ b1 ≤ 0xBF)
  else if b = 0xED then decide (0x80 ≤ b1 ∧ b1 ≤ 0x9F)
  else contByte b1

/-- Constraint on the first continuation byte of a four-byte sequence. -/
def cont4Ok (b b1 : Nat) : Bool :=
  if b = 0xF0 then decide (0x90 ≤ b1 ∧ b1 ≤ 0xBF)
  else if b = 0xF4 then decide (0x80 ≤ b1 ∧ b1 ≤ 0x8F)
  else contByte b1

/-- Decode one UTF-8 scalar from the byte stream, returning the character
and the remaining bytes, or `none` for an invalid sequence. -/
def decode1 (b : Nat) (rest : List Nat) : Option (Char × List Nat) :=
  if b ≤ 0x7F then some (Char.ofNat b, rest)
  else if 0xC2 ≤ b ∧ b ≤ 0xDF then
    match rest with
    | b1 :: r =>
      if contByte b1 then some (Char.ofNat ((b - 0xC0) * 0x40 + (b1 - 0x80)), r)
      else none
    | [] => none
  else if 0xE0 ≤ b ∧ b ≤ 0xEF then
    match rest with
    | b1 :: b2 :: r =>
      if cont2Ok b b1 && contByte b2 then
        some (Char.ofNat ((b - 0xE0) * 0x1000 + (b1 - 0x80) * 0x40 + (b2 - 0x80)), r)
      else none
    | _ => none
  else if 0xF0 ≤ b ∧ b ≤ 0xF4 then
    match rest with
    | b1 :: b2 :: b3 :: r =>
      if cont4Ok b b1 && contByte b2 && contByte b3 then
        some (Char.ofNat ((b - 0xF0) * 0x40000 + (b1 - 0x80) * 0x1000
          + (b2 - 0x80) * 0x40 + (b3 - 0x80)), r)
      else none
    | _ => none
  else none

/-- Fuelled UTF-8 decoding loop.  In strict mode an invalid sequence
aborts the decode; otherwise one replacement character U+FFFD is emitted
and decoding resumes at the next byte (the lossy `errors="replace"` mode;
the replacement granularity abstracts CPython, which may substitute one
marker for several bytes — no claim depends on the granularity). -/
def utf8DecodeLoop (strict : Bool) : Nat → List Nat → Option (List Char)
  | _, [] => some []
  | 0, _ :: _ => none
  | fuel + 1, b :: rest =>
    match decode1 b rest with
    | some p => (utf8DecodeLoop strict fuel p.2).map (fun t => p.1 :: t)
    | none =>
      if strict then none
      else (utf8DecodeLoop strict fuel rest).map (fun t => Char.ofNat 0xFFFD :: t)

/-- Strict decode (Python `bytes.decode("utf-8")`): `none` on invalid input. -/
def utf8DecodeStrict (bytes : List Nat) : Option Str :=
  utf8DecodeLoop true bytes.length bytes

/-- Lossy decode (Python `errors="replace"`). -/
def utf8DecodeReplace (bytes : List Nat) : Str :=
  (utf8DecodeLoop false bytes.length bytes).getD []

/-- The read step of `ensure_link_in_file`: strict decode, falling back
to the lossy decode when the strict one fails (the try/except block). -/
def read_text_with_fallback (bytes : List Nat) : Str :=
  match utf8DecodeStrict bytes with
  | some t => t
  | none => utf8DecodeReplace bytes

/-- No line-boundary character occurs in `l`. -/
def noB (l : Str) : Bool := l.all (fun c => !isLineBoundary c)

/-- Sufficient condition, on one (optional) file content, for the second
run over that file to be a no-op: either nothing will be inserted, or the
anchor index is at most 47, so the inserted link line lands inside the
50-line detection window. -/
def windowOK (raw? : Option Str) (class_name : Str) : Bool :=
  match raw? with
  | none => true
  | some raw =>
    let lines := splitlines raw
    file_has_class_in_first_lines lines class_name
      || match find_anchor_index lines with
         | none => true
         | some idx => decide (idx ≤ 47)

/-- `windowOK` for every file target of the run. -/
def allWindowOK (fs : FS) (root : FPath) : Bool :=
  (allTargets root PRIVACY_NOTICE_LINKS).all (fun tg => windowOK (fs.read tg.path) tg.cn)

/-- The five per-file status prefixes the script can print. -/
def statusStrings : List Str :=
  ["SKIP (missing)".data, "OK (already present)".data,
   "WARN (anchor not found, no change)".data, "UPDATED".data,
   "DRY-RUN would update".data]

/-- A printed line of the per-(locale, file) form
`[<locale>] <STATUS>: <path>` with a known locale and status. -/
def isPerFileLine (l : Str) : Prop :=
  ∃ loc st p, (∃ t, (loc, t) ∈ PRIVACY_NOTICE_LINKS) ∧ st ∈ statusStrings ∧
    l = ("[" ++ loc ++ "] ").data ++ st ++ ": ".data ++ pathStr p

/-- A printed per-locale skip line. -/
def isLocaleSkipLine (l : Str) : Prop :=
  ∃ loc, (∃ t, (loc, t) ∈ PRIVACY_NOTICE_LINKS) ∧
    l = ("SKIP (locale folder not available): " ++ loc).data

/-- Correspondence between a real-run report line and the dry-run report
line for the same (locale, file): identical, except that `UPDATED`
becomes `DRY-RUN would update`. -/
def dryMatch (realLine dryLine : Str) : Prop :=
  dryLine = realLine ∨
    ∃ pre post, realLine = pre ++ "UPDATED: ".data ++ post ∧
      dryLine = pre ++ "DRY-RUN would update: ".data ++ post

/-- A file tree with the given directories and a single file. -/
def singleFileFS (dirs : List FPath) (p : FPath) (content : Str) : FS :=
  ⟨fun q => dirs.contains q, fun q => if q = p then some content else none⟩

/-- Path of the `en` current notice under root `[]`. -/
def enNotice : FPath := ["en", "firefox_privacy_notice.md"]

/-- Path of the `en` preview notice under root `[]`. -/
def enPreview : FPath := ["en", "firefox_privacy_notice_preview.md"]

/-- A minimal line containing the anchor text. -/
def anchorPlain : Str := FIND_ANCHOR ++ ['\n']

/-- Content whose first anchor line sits at index 48 — past the point
where the inserted link would still fall inside the first 50 lines. -/
def deepRaw : Str :=
  (List.replicate 48 ['x', '\n']).flatten ++ anchorPlain ++ ['y', '\n']

/-- Tree with only `en/firefox_privacy_notice.md`, anchored at line 49. -/
def fsDeep : FS := singleFileFS [[], ["en"]] enNotice deepRaw

/-- Content with the anchor on the first line. -/
def shallowRaw : Str := anchorPlain ++ ['y', '\n']

/-- Tree with only `en/firefox_privacy_notice.md`, anchored at line 1. -/
def fsShallow : FS := singleFileFS [[], ["en"]] enNotice shallowRaw

/-- Content that is already linked (class attribute on line 1) but has no
anchor line anywhere. -/
def linkedNoAnchorRaw : Str := dqNeedle ("link-next-pn".data) ++ ['\n']

/-- Tree for the already-linked, anchorless file. -/
def fsLinkedNoAnchor : FS := singleFileFS [[], ["en"]] enNotice linkedNoAnchorRaw

/-- A tree whose root exists but which contains no locale directory. -/
def fsOnlyRoot : FS := ⟨fun q => q = ([] : FPath), fun _ => none⟩

/-- A tree in which even the root is missing. -/
def fsNothing : FS := ⟨fun _ => false, fun _ => none⟩

/-- The candidate files of a run: both notice files of every locale of
the static table whose directory exists under the root. -/
def allCandidatePaths (fs : FS) (root : FPath) : List FPath :=
  (PRIVACY_NOTICE_LINKS.filter (fun e => fs.isDir (root ++ [e.1]))).flatMap
    (fun e => [root ++ [e.1, "firefox_privacy_notice.md"],
               root ++ [e.1, "firefox_privacy_notice_preview.md"]])

/-- Tree with a single `en` notice file that has no anchor line. -/
def fsNoAnchor : FS := singleFileFS [[], ["en"]] enNotice ("hello\n".data)

/-- The anchor line of the end-to-end example (line 10 of the file). -/
def c6Anchor : Str :=
  Char.ofNat 123 :: ": datetime=\"2024-01-01\" ".data ++ [Char.ofNat 125, '\n']

/-- Example content: nine filler lines, the anchor line as line 10, one
following content line. -/
def c6Raw : Str :=
  (List.replicate 9 "text\n".data).flatten ++ c6Anchor ++ "after\n".data

/-- The example tree: locale directory `en` with both notice files. -/
def fsC6 : FS :=
  ⟨fun q => q = ([] : FPath) || q = ["en"],
   fun q => if q = enNotice then some c6Raw
            else if q = enPreview then some c6Raw else none⟩

/-- The exact link line the claim expects in `en/firefox_privacy_notice.md`. -/
def c6LinkNext : Str :=
  "<a class=\"link-next-pn\" href=\"https://www.mozilla.org/privacy/firefox/next\">We’re updating our Privacy Notice. Click here to see the new version.</a>\n".data

/-- The exact link line the claim expects in the preview notice. -/
def c6LinkCurrent : Str :=
  "<a class=\"link-current-pn\" href=\"https://www.mozilla.org/privacy/firefox/\">To see our current notice, click here.</a>\n".data

/-- Expected content of the current notice after the run. -/
def c6ExpectedNotice : Str :=
  (List.replicate 9 "text\n".data).flatten ++ c6Anchor
    ++ ['\n'] ++ c6LinkNext ++ ['\n'] ++ "after\n".data

/-- Expected content of the preview notice after the run. -/
def c6ExpectedPreview : Str :=
  (List.replicate 9 "text\n".data).flatten ++ c6Anchor
    ++ ['\n'] ++ c6LinkCurrent ++ ['\n'] ++ "after\n".data

/-! Theory of `splitlines`. -/

theorem breakLine_decomp : ∀ s : List Char, (breakLine s).1 ++ (breakLine s).2 = s
  | [] => rfl
  | c :: rest => by
    simp only [breakLine]
    split
    next hc =>
      subst hc
      split
      next hh =>
        cases rest with
        | nil => simp at hh
        | cons d t =>
          simp only [List.head?_cons, Option.some.injEq] at hh
          subst hh
          rfl
      next => rfl
    next =>
      split
      next => rfl
      next => simpa using breakLine_decomp rest

theorem breakLine_fst_ne_nil : ∀ s : List Char, s ≠ [] → (breakLine s).1 ≠ []
  | [], h => absurd rfl h
  | c :: rest, _ => by
    simp only [breakLine]
    split
    next hc =>
      split <;> simp
    next =>
      split
      next => simp
      next => simp

theorem breakLine_snd_lt (s : List Char) (h : s ≠ []) :
    (breakLine s).2.length < s.length := by
  conv_rhs => rw [← breakLine_decomp s]
  rw [List.length_append]
  have h1 : (breakLine s).1 ≠ [] := breakLine_fst_ne_nil s h
  have : 0 < (breakLine s).1.length := List.length_pos.mpr h1
  omega

theorem splitlinesF_congr : ∀ f1 f2 : Nat, ∀ s : List Char,
    s.length ≤ f1 → s.length ≤ f2 → splitlinesF f1 s = splitlinesF f2 s := by
  intro f1
  induction f1 with
  | zero =>
    intro f2 s h1 _
    have : s = [] := List.length_eq_zero.mp (Nat.le_zero.mp h1)
    subst this
    cases f2 <;> rfl
  | succ n ih =>
    intro f2 s h1 h2
    cases s with
    | nil => cases f2 <;> rfl
    | cons c rest =>
      cases f2 with
      | zero => simp at h2
      | succ m =>
        simp only [splitlinesF]
        have hlt := breakLine_snd_lt (c :: rest) (by simp)
        have hn : (breakLine (c :: rest)).2.length ≤ n := by
          simp only [List.length_cons] at h1 hlt; omega
        have hm : (breakLine (c :: rest)).2.length ≤ m := by
          simp only [List.length_cons] at h2 hlt; omega
        rw [ih m _ hn hm]

theorem splitlines_nil : splitlines [] = [] := rfl

theorem splitlines_cons (c : Char) (rest : List Char) :
    splitlines (c :: rest) =
      (breakLine (c :: rest)).1 :: splitlines ((breakLine (c :: rest)).2) := by
  show splitlinesF ((c :: rest).length) (c :: rest) = _
  simp only [List.length_cons, splitlinesF]
  congr 1
  have hlt := breakLine_snd_lt (c :: rest) (by simp)
  exact splitlinesF_congr _ _ _ (by simp only [List.length_cons] at hlt; omega) le_rfl

theorem splitlines_eq_nil_iff (s : List Char) : splitlines s = [] ↔ s = [] := by
  cases s with
  | nil => simp [splitlines_nil]
  | cons c rest => simp [splitlines_cons]

theorem flatten_splitlines : ∀ s : List Char, (splitlines s).flatten = s
  | [] => rfl
  | c :: rest => by
    rw [splitlines_cons, List.flatten_cons,
      flatten_splitlines ((breakLine (c :: rest)).2), breakLine_decomp]
termination_by s => s.length
decreasing_by exact breakLine_snd_lt _ (by simp)

theorem breakLine_append : ∀ x : List Char, x.getLast? = some '\n' → ∀ y : List Char,
    (breakLine (x ++ y)).1 = (breakLine x).1 ∧
    (breakLine (x ++ y)).2 = (breakLine x).2 ++ y ∧
    ((breakLine x).2 = [] ∨ (breakLine x).2.getLast? = some '\n')
  | [], h, _ => by simp at h
  | c :: rest, h, y => by
    cases rest with
    | nil =>
      have hc : c = '\n' := by simpa using h
      subst hc
      exact ⟨rfl, rfl, Or.inl rfl⟩
    | cons d rest' =>
      have hlast : (d :: rest').getLast? = some '\n' := by
        rw [List.getLast?_cons_cons] at h; exact h
      by_cases hr : c = '\r'
      · subst hr
        by_cases hd : d = '\n'
        · subst hd
          refine ⟨rfl, rfl, ?_⟩
          cases rest' with
          | nil => exact Or.inl rfl
          | cons e t => exact Or.inr (by rwa [List.getLast?_cons_cons] at hlast)
        · have e1 : breakLine ('\r' :: d :: rest') = (['\r'], d :: rest') := by
            simp [breakLine, hd]
          have e2 : breakLine (('\r' :: d :: rest') ++ y) = (['\r'], (d :: rest') ++ y) := by
            simp [breakLine, hd]
          rw [e1, e2]
          exact ⟨rfl, rfl, Or.inr hlast⟩
      · by_cases hb : isLineBoundary c = true
        · have e1 : breakLine (c :: d :: rest') = ([c], d :: rest') := by
            simp [breakLine, hr, hb]
          have e2 : breakLine ((c :: d :: rest') ++ y) = ([c], (d :: rest') ++ y) := by
            simp [breakLine, hr, hb]
          rw [e1, e2]
          exact ⟨rfl, rfl, Or.inr hlast⟩
        · have ih := breakLine_append (d :: rest') hlast y
          have e1 : breakLine (c :: d :: rest') =
              (c :: (breakLine (d :: rest')).1, (breakLine (d :: rest')).2) := by
            simp [breakLine, hr, hb]
          have e2 : breakLine ((c :: d :: rest') ++ y) =
              (c :: (breakLine ((d :: rest') ++ y)).1, (breakLine ((d :: rest') ++ y)).2) := by
            simp [breakLine, hr, hb]
          rw [e1, e2, ih.1, ih.2.1]
          exact ⟨rfl, rfl, ih.2.2⟩

theorem splitlines_append : ∀ x : List Char, x.getLast? = some '\n' → ∀ y : List Char,
    splitlines (x ++ y) = splitlines x ++ splitlines y
  | [], h, _ => by simp at h
  | c :: rest, h, y => by
    obtain ⟨h1, h2, h3⟩ := breakLine_append (c :: rest) h y
    have key : splitlines ((breakLine (c :: rest)).2 ++ y)
        = splitlines ((breakLine (c :: rest)).2) ++ splitlines y := by
      rcases h3 with h3 | h3
      · rw [h3]; simp [splitlines_nil]
      · exact splitlines_append _ h3 y
    have e : splitlines ((c :: rest) ++ y)
        = (breakLine ((c :: rest) ++ y)).1 :: splitlines ((breakLine ((c :: rest) ++ y)).2) :=
      splitlines_cons c (rest ++ y)
    rw [e, h1, h2, key, splitlines_cons c rest]
    rfl
termination_by x => x.length
decreasing_by exact breakLine_snd_lt _ (by simp)

theorem splitlines_length_cons_nb (c : Char) (hr : ¬ c = '\r')
    (hb : ¬ isLineBoundary c = true) :
    ∀ z : List Char, z ≠ [] → (splitlines (c :: z)).length = (splitlines z).length := by
  intro z hz
  cases z with
  | nil => exact absurd rfl hz
  | cons d t =>
    have e1 : breakLine (c :: d :: t) =
        (c :: (breakLine (d :: t)).1, (breakLine (d :: t)).2) := by
      simp [breakLine, hr, hb]
    rw [splitlines_cons c (d :: t), splitlines_cons d t, e1]
    simp

theorem splitlines_append_length : ∀ x y : List Char,
    (splitlines (x ++ y)).length ≤ (splitlines x).length + (splitlines y).length
  | [], y => by simp [splitlines_nil]
  | c :: rest, y => by
    by_cases hr : c = '\r'
    · subst hr
      cases rest with
      | nil =>
        cases y with
        | nil => simp
        | cons d y' =>
          by_cases hd : d = '\n'
          · subst hd
            have e1 : breakLine ('\r' :: '\n' :: y') = (['\r', '\n'], y') := rfl
            have e2 : breakLine ('\n' :: y') = (['\n'], y') := rfl
            have g1 : ['\r'] ++ '\n' :: y' = '\r' :: '\n' :: y' := rfl
            rw [g1, splitlines_cons '\r' ('\n' :: y'), splitlines_cons '\n' y', e1, e2]
            simp
          · have e1 : breakLine ('\r' :: d :: y') = (['\r'], d :: y') := by
              simp [breakLine, hd]
            have g1 : ['\r'] ++ d :: y' = '\r' :: d :: y' := rfl
            rw [g1, splitlines_cons '\r' (d :: y'), e1]
            rw [show splitlines ['\r'] = [['\r']] from rfl]
            simp [Nat.add_comm]
      | cons d rest' =>
        by_cases hd : d = '\n'
        · subst hd
          have e1 : breakLine ('\r' :: '\n' :: rest') = (['\r', '\n'], rest') := rfl
          have e2 : breakLine (('\r' :: '\n' :: rest') ++ y) = (['\r', '\n'], rest' ++ y) := rfl
          have g1 : ('\r' :: '\n' :: rest') ++ y = '\r' :: '\n' :: (rest' ++ y) := rfl
          rw [g1, splitlines_cons '\r' ('\n' :: (rest' ++ y)), splitlines_cons '\r' ('\n' :: rest')]
          rw [show breakLine ('\r' :: '\n' :: (rest' ++ y)) = (['\r', '\n'], rest' ++ y) from rfl, e1]
          have ih := splitlines_append_length rest' y
          simp only [List.length_cons]
          omega
        · have e1 : breakLine ('\r' :: d :: rest') = (['\r'], d :: rest') := by
            simp [breakLine, hd]
          have e2 : breakLine ('\r' :: ((d :: rest') ++ y)) = (['\r'], (d :: rest') ++ y) := by
            simp [breakLine, hd]
          have g1 : ('\r' :: d :: rest') ++ y = '\r' :: ((d :: rest') ++ y) := rfl
          rw [g1, splitlines_cons '\r' ((d :: rest') ++ y), splitlines_cons '\r' (d :: rest'), e1, e2]
          have ih := splitlines_append_length (d :: rest') y
          simp only [List.length_cons]
          omega
    · by_cases hb : isLineBoundary c = true
      · have e1 : breakLine (c :: rest) = ([c], rest) := by
          simp [breakLine, hr, hb]
        have e2 : breakLine (c :: (rest ++ y)) = ([c], rest ++ y) := by
          simp [breakLine, hr, hb]
        have g1 : (c :: rest) ++ y = c :: (rest ++ y) := rfl
        rw [g1, splitlines_cons c (rest ++ y), splitlines_cons c rest, e1, e2]
        have ih := splitlines_append_length rest y
        simp only [List.length_cons]
        omega
      · cases rest with
        | nil =>
          cases y with
          | nil => simp
          | cons e y2 =>
            have g1 : [c] ++ e :: y2 = c :: e :: y2 := rfl
            have h1 : (splitlines (c :: e :: y2)).length = (splitlines (e :: y2)).length :=
              splitlines_length_cons_nb c hr hb (e :: y2) (by simp)
            have h2 : splitlines [c] = [[c]] := by
              have e1 : breakLine [c] = ([c], []) := by
                simp [breakLine, hr, hb]
              rw [splitlines_cons c [], e1, splitlines_nil]
            rw [g1, h1, h2]
            simp
        | cons d rest' =>
          have g1 : (c :: d :: rest') ++ y = c :: ((d :: rest') ++ y) := rfl
          have h1 : (splitlines (c :: ((d :: rest') ++ y))).length
              = (splitlines ((d :: rest') ++ y)).length :=
            splitlines_length_cons_nb c hr hb ((d :: rest') ++ y) (by simp)
          have h2 : (splitlines (c :: d :: rest')).length = (splitlines (d :: rest')).length :=
            splitlines_length_cons_nb c hr hb (d :: rest') (by simp)
          have ih := splitlines_append_length (d :: rest') y
          rw [g1, h1, h2]
          omega
termination_by x _ => x.length

theorem breakLine_self : ∀ s : List Char, s ≠ [] →
    breakLine ((breakLine s).1) = ((breakLine s).1, [])
  | [], h => absurd rfl h
  | c :: rest, _ => by
    by_cases hr : c = '\r'
    · subst hr
      by_cases hh : rest.head? = some '\n'
      · have e1 : breakLine ('\r' :: rest) = (['\r', '\n'], rest.tail) := by
          simp [breakLine, hh]
        rw [e1]
        rfl
      · have e1 : breakLine ('\r' :: rest) = (['\r'], rest) := by
          simp [breakLine, hh]
        rw [e1]
        rfl
    · by_cases hb : isLineBoundary c = true
      · have e1 : breakLine (c :: rest) = ([c], rest) := by
          simp [breakLine, hr, hb]
        rw [e1]
        simp [breakLine, hr, hb]
      · cases rest with
        | nil =>
          have e3 : breakLine [c] = ([c], []) := by simp [breakLine, hr, hb]
          rw [e3]
          exact e3
        | cons d t =>
          have ih := breakLine_self (d :: t) (by simp)
          have e1 : breakLine (c :: d :: t) =
              (c :: (breakLine (d :: t)).1, (breakLine (d :: t)).2) := by
            simp [breakLine, hr, hb]
          have e2 : breakLine (c :: (breakLine (d :: t)).1) =
              (c :: (breakLine ((breakLine (d :: t)).1)).1,
               (breakLine ((breakLine (d :: t)).1)).2) := by
            simp [breakLine, hr, hb]
          rw [e1]
          show breakLine (c :: (breakLine (d :: t)).1)
            = (c :: (breakLine (d :: t)).1, [])
          rw [e2, ih]

theorem splitlines_single_of_mem : ∀ s : List Char, ∀ l ∈ splitlines s, splitlines l = [l]
  | [], l, hl => by simp [splitlines_nil] at hl
  | c :: rest, l, hl => by
    rw [splitlines_cons] at hl
    rcases List.mem_cons.mp hl with rfl | hmem
    · have hne := breakLine_fst_ne_nil (c :: rest) (by simp)
      have hself := breakLine_self (c :: rest) (by simp)
      cases hfst : (breakLine (c :: rest)).1 with
      | nil => exact absurd hfst hne
      | cons a t =>
        rw [splitlines_cons a t, ← hfst, hself, splitlines_nil]
    · exact splitlines_single_of_mem ((breakLine (c :: rest)).2) l hmem
termination_by s => s.length
decreasing_by exact breakLine_snd_lt _ (by simp)

theorem splitlines_flatten_length_le : ∀ ls : List Str,
    (∀ l ∈ ls, splitlines l = [l]) →
    (splitlines ls.flatten).length ≤ ls.length := by
  intro ls
  induction ls with
  | nil => intro _; simp [splitlines_nil]
  | cons l rest ih =>
    intro h
    have h1 : splitlines l = [l] := h l (List.mem_cons_self l rest)
    have h2 := splitlines_append_length l rest.flatten
    have h3 := ih (fun x hx => h x (List.mem_cons_of_mem l hx))
    rw [List.flatten_cons]
    calc (splitlines (l ++ rest.flatten)).length
        ≤ (splitlines l).length + (splitlines rest.flatten).length := h2
      _ ≤ 1 + rest.length := by rw [h1]; simpa using h3
      _ = (l :: rest).length := by simp [Nat.add_comm]

theorem splitlines_cons_nl (ll : List Char) : splitlines ('\n' :: ll) = ['\n'] :: splitlines ll := by
  rw [splitlines_cons]
  rfl

theorem splitlines_noB_nl : ∀ b : Str, noB b = true →
    splitlines (b ++ ['\n']) = [b ++ ['\n']]
  | [], _ => by simpa using splitlines_cons_nl []
  | c :: b', hb => by
    have hcb : ¬ isLineBoundary c = true := by
      have := List.all_eq_true.mp hb c (List.mem_cons_self c b')
      simpa using this
    have hb' : noB b' = true :=
      List.all_eq_true.mpr (fun x hx => List.all_eq_true.mp hb x (List.mem_cons_of_mem c hx))
    have hr : ¬ c = '\r' := by
      intro hc
      subst hc
      exact hcb (by decide)
    have ihs := splitlines_noB_nl b' hb'
    have hne : b' ++ ['\n'] ≠ [] := by simp
    have hbl : breakLine (b' ++ ['\n']) = (b' ++ ['\n'], []) := by
      cases hb2 : b' ++ ['\n'] with
      | nil => exact absurd hb2 hne
      | cons a t =>
        rw [hb2, splitlines_cons a t] at ihs
        injection ihs with h1 h2
        have hsnd : (breakLine (a :: t)).2 = [] := (splitlines_eq_nil_iff _).mp h2
        cases hpair : breakLine (a :: t) with
        | mk u v =>
          rw [hpair] at h1 hsnd
          simp only at h1 hsnd
          rw [h1, hsnd]
    have e1 : breakLine (c :: (b' ++ ['\n'])) =
        (c :: (breakLine (b' ++ ['\n'])).1, (breakLine (b' ++ ['\n'])).2) := by
      simp [breakLine, hr, hcb]
    have g1 : (c :: b') ++ ['\n'] = c :: (b' ++ ['\n']) := rfl
    rw [g1, splitlines_cons c (b' ++ ['\n']), e1, hbl, splitlines_nil]

/-! Substring search, detection window, and blank lines. -/

theorem inStr_iff (needle : Str) : ∀ hay : Str, inStr needle hay = true ↔ needle <:+: hay
  | [] => by
    simp [inStr, List.isEmpty_iff, List.infix_nil]
  | c :: rest => by
    simp only [inStr, Bool.or_eq_true]
    rw [inStr_iff needle rest, List.isPrefixOf_iff_prefix]
    exact (List.infix_cons_iff).symm

theorem file_has_class_iff (lines : List Str) (cn : Str) :
    file_has_class_in_first_lines lines cn = true ↔
      (dqNeedle cn <:+: (lines.take 50).flatten ∨ sqNeedle cn <:+: (lines.take 50).flatten) := by
  simp only [file_has_class_in_first_lines, SCAN_FIRST_N_LINES, Bool.or_eq_true,
    inStr_iff]

theorem infix_take_flatten {needle P : Str} (R : Str) (hP : needle <:+: P)
    (hlast : P.getLast? = some '\n') (hlen : (splitlines P).length ≤ 50) :
    needle <:+: ((splitlines (P ++ R)).take 50).flatten := by
  rw [splitlines_append P hlast R, List.take_append_eq_append_take,
    List.take_of_length_le hlen, List.flatten_append, flatten_splitlines]
  exact hP.trans (List.prefix_append P _).isInfix

theorem pyStrip_eq_nil_iff (l : Str) : pyStrip l = [] ↔ l.all pyIsSpace = true := by
  unfold pyStrip
  rw [List.reverse_eq_nil_iff, List.dropWhile_eq_nil_iff]
  constructor
  · intro h
    rw [List.all_eq_true]
    intro x hx
    have hsplit : List.takeWhile pyIsSpace l ++ List.dropWhile pyIsSpace l = l :=
      List.takeWhile_append_dropWhile pyIsSpace l
    rcases List.mem_append.mp (hsplit ▸ hx) with hx' | hx'
    · exact List.mem_takeWhile_imp hx'
    · exact h x (List.mem_reverse.mpr hx')
  · intro h x hx
    exact List.all_eq_true.mp h x ((List.dropWhile_sublist pyIsSpace).mem (List.mem_reverse.mp hx))

theorem dropWhile_blank_append (blanks rest : List Str)
    (hB : ∀ b ∈ blanks, pyStrip b = [])
    (hR : ∀ r, rest.head? = some r → ¬ pyStrip r = []) :
    (blanks ++ rest).dropWhile (fun l => pyStrip l = []) = rest := by
  induction blanks with
  | nil =>
    cases rest with
    | nil => rfl
    | cons r t =>
      have hr := hR r rfl
      simp [List.dropWhile_cons, hr]
  | cons b bs ih =>
    have hb := hB b (List.mem_cons_self b bs)
    simp only [List.cons_append, List.dropWhile_cons, hb]
    simpa using ih (fun x hx => hB x (List.mem_cons_of_mem b hx))

/-! Branch structure of `decide_outcome` and per-file frame lemmas. -/

theorem decide_outcome_ne_skip (raw : Str) (cn href text : Str) :
    decide_outcome (some raw) cn href text ≠ Outcome.skipMissing := by
  simp only [decide_outcome]
  split
  · simp
  · split <;> simp

theorem decide_outcome_some_update {raw c cn href text : Str}
    (h : decide_outcome (some raw) cn href text = .update c) :
    file_has_class_in_first_lines (splitlines raw) cn = false ∧
    ∃ idx, find_anchor_index (splitlines raw) = some idx ∧
      c = (insert_block_after_index (splitlines raw) idx
            (build_link_line cn href text)).1.flatten := by
  simp only [decide_outcome] at h
  split at h
  · simp at h
  · next hclass =>
    split at h
    · simp at h
    · next idx hidx =>
      injection h with h
      exact ⟨Bool.eq_false_iff.mpr hclass, idx, hidx, h.symm⟩

theorem ensure_link_of_outcome_nonupdate {fs : FS} {p : FPath} {cn href text : Str}
    (dry : Bool)
    (h : ∀ c, decide_outcome (fs.read p) cn href text ≠ .update c) :
    (ensure_link_in_file fs p cn href text dry).1 = fs ∧
    (ensure_link_in_file fs p cn href text dry).2.1 = false ∧
    ensure_writes fs p cn href text dry = [] := by
  unfold ensure_link_in_file ensure_writes
  cases ho : decide_outcome (fs.read p) cn href text with
  | skipMissing => exact ⟨rfl, rfl, rfl⟩
  | okPresent => exact ⟨rfl, rfl, rfl⟩
  | warnNoAnchor => exact ⟨rfl, rfl, rfl⟩
  | update c => exact absurd ho (h c)

theorem ensure_link_of_outcome_update {fs : FS} {p : FPath} {cn href text c : Str}
    (dry : Bool) (h : decide_outcome (fs.read p) cn href text = .update c) :
    (ensure_link_in_file fs p cn href text dry).1 = (if dry then fs else writeFile fs p c) ∧
    (ensure_link_in_file fs p cn href text dry).2.1 = true ∧
    ensure_writes fs p cn href text dry = (if dry then [] else [p]) := by
  unfold ensure_link_in_file ensure_writes
  rw [h]
  exact ⟨rfl, rfl, rfl⟩

theorem ensure_link_isDir (fs : FS) (p : FPath) (cn href text : Str) (dry : Bool) :
    (ensure_link_in_file fs p cn href text dry).1.isDir = fs.isDir := by
  unfold ensure_link_in_file
  cases decide_outcome (fs.read p) cn href text with
  | update c =>
    simp only
    split
    · rfl
    · rfl
  | skipMissing => rfl
  | okPresent => rfl
  | warnNoAnchor => rfl

theorem writeFile_read_other {fs : FS} {p q : FPath} {t : Str} (hq : q ≠ p) :
    (writeFile fs p t).read q = fs.read q := by
  simp [writeFile, hq]

theorem ensure_link_read_preserve {fs : FS} {p : FPath} {cn href text : Str}
    {dry : Bool} {q : FPath} (hq : q ∉ ensure_writes fs p cn href text dry) :
    (ensure_link_in_file fs p cn href text dry).1.read q = fs.read q := by
  unfold ensure_link_in_file
  unfold ensure_writes at hq
  cases ho : decide_outcome (fs.read p) cn href text with
  | update c =>
    rw [ho] at hq
    simp only
    split
    · rfl
    · next hdry =>
      rw [if_neg hdry] at hq
      exact writeFile_read_other (by simpa using hq)
  | skipMissing => rfl
  | okPresent => rfl
  | warnNoAnchor => rfl

theorem ensure_link_dry_fs (fs : FS) (p : FPath) (cn href text : Str) :
    (ensure_link_in_file fs p cn href text true).1 = fs := by
  unfold ensure_link_in_file
  cases decide_outcome (fs.read p) cn href text <;> rfl

theorem ensure_writes_dry (fs : FS) (p : FPath) (cn href text : Str) :
    ensure_writes fs p cn href text true = [] := by
  unfold ensure_writes
  cases decide_outcome (fs.read p) cn href text <;> rfl

theorem ensure_writes_sublist (fs : FS) (p : FPath) (cn href text : Str) (dry : Bool) :
    List.Sublist (ensure_writes fs p cn href text dry) [p] := by
  unfold ensure_writes
  cases decide_outcome (fs.read p) cn href text with
  | update c =>
    simp only
    split
    · exact List.nil_sublist _
    · exact List.Sublist.refl _
  | skipMissing => exact List.nil_sublist _
  | okPresent => exact List.nil_sublist _
  | warnNoAnchor => exact List.nil_sublist _

theorem ensure_link_changed_congr {fs fs' : FS} {p : FPath} {cn href text : Str}
    (h : fs'.read p = fs.read p) (dry dry' : Bool) :
    (ensure_link_in_file fs' p cn href text dry').2.1
      = (ensure_link_in_file fs p cn href text dry).2.1 := by
  unfold ensure_link_in_file
  rw [h]
  cases decide_outcome (fs.read p) cn href text <;> rfl

theorem ensure_link_dry_msg {fs fs' : FS} {p : FPath} {cn href text : Str}
    (h : fs'.read p = fs.read p) :
    (ensure_link_in_file fs' p cn href text true).2.2
        = (ensure_link_in_file fs p cn href text false).2.2 ∨
      ((ensure_link_in_file fs p cn href text false).2.2 = "UPDATED: ".data ++ pathStr p ∧
       (ensure_link_in_file fs' p cn href text true).2.2
        = "DRY-RUN would update: ".data ++ pathStr p) := by
  unfold ensure_link_in_file
  rw [h]
  cases decide_outcome (fs.read p) cn href text with
  | update c => exact Or.inr ⟨rfl, rfl⟩
  | skipMissing => exact Or.inl rfl
  | okPresent => exact Or.inl rfl
  | warnNoAnchor => exact Or.inl rfl

/-! The inserted link is detected on the next pass. -/

theorem build_link_line_getLast (cn href text : Str) :
    (build_link_line cn href text).getLast? = some '\n' := by
  unfold build_link_line
  exact List.getLast?_concat _

theorem dqNeedle_infix_link_body (cn href text : Str) :
    dqNeedle cn <:+: link_body cn href text := by
  refine ⟨"<a ".data, " href=\"".data ++ href ++ "\">".data ++ text ++ "</a>".data, ?_⟩
  unfold link_body dqNeedle
  rw [show "<a class=\"".data = "<a ".data ++ "class=\"".data from rfl,
    show "\" href=\"".data = ['"'] ++ " href=\"".data from rfl]
  simp [List.append_assoc]

theorem decide_outcome_update_settled {raw c cn href text : Str}
    (hnoB : noB (link_body cn href text) = true)
    (hup : decide_outcome (some raw) cn href text = .update c)
    (hwin : windowOK (some raw) cn = true) :
    decide_outcome (some c) cn href text = .okPresent := by
  obtain ⟨hclass, idx, hanchor, hc⟩ := decide_outcome_some_update hup
  have hidx : idx ≤ 47 := by
    have hw := hwin
    simp only [windowOK] at hw
    rw [hclass, hanchor] at hw
    simpa using hw
  have hinsert : (insert_block_after_index (splitlines raw) idx
        (build_link_line cn href text)).1
      = (splitlines raw).take (idx + 1)
        ++ ['\n'] :: build_link_line cn href text :: ['\n']
          :: ((splitlines raw).drop (idx + 1)).dropWhile (fun l => pyStrip l = []) := by
    unfold insert_block_after_index
    rw [if_pos (build_link_line_getLast cn href text)]
  set lines := splitlines raw with hlines
  set ll := build_link_line cn href text with hll
  set pre := lines.take (idx + 1) with hpre
  set tail := (lines.drop (idx + 1)).dropWhile (fun l => pyStrip l = []) with htail
  have hcc : c = (pre ++ ['\n'] :: ll :: ['\n'] :: tail).flatten := by rw [hc, hinsert]
  have hfl : (pre ++ ['\n'] :: ll :: ['\n'] :: tail).flatten
      = (pre.flatten ++ '\n' :: ll) ++ ('\n' :: tail.flatten) := by
    simp [List.flatten_append, List.flatten_cons, List.append_assoc]
  have hn1 : dqNeedle cn <:+: link_body cn href text := dqNeedle_infix_link_body cn href text
  have hn2 : link_body cn href text <+: ll := ⟨['\n'], rfl⟩
  have hn3 : ll <:+ (pre.flatten ++ '\n' :: ll) := ⟨pre.flatten ++ ['\n'], by simp⟩
  have hneedle : dqNeedle cn <:+: (pre.flatten ++ '\n' :: ll) :=
    (hn1.trans hn2.isInfix).trans hn3.isInfix
  have hlastll : ('\n' :: ll).getLast? = some '\n' := by
    rw [hll]
    show (('\n' :: link_body cn href text) ++ ['\n']).getLast? = some '\n'
    exact List.getLast?_concat _
  have hlast : (pre.flatten ++ '\n' :: ll).getLast? = some '\n' := by
    rw [List.getLast?_append, hlastll]
    rfl
  have hpre_single : ∀ l ∈ pre, splitlines l = [l] := by
    intro l hl
    exact splitlines_single_of_mem raw l (List.take_subset _ _ hl)
  have hsplitP : (splitlines (pre.flatten ++ '\n' :: ll)).length ≤ 50 := by
    have h1 := splitlines_append_length pre.flatten ('\n' :: ll)
    have h2 : (splitlines pre.flatten).length ≤ pre.length :=
      splitlines_flatten_length_le pre hpre_single
    have h3 : splitlines ('\n' :: ll) = ['\n'] :: splitlines ll := splitlines_cons_nl ll
    have h4 : splitlines ll = [ll] := by rw [hll]; exact splitlines_noB_nl _ hnoB
    have h5 : pre.length ≤ idx + 1 := by
      rw [hpre]; exact List.length_take_le _ _
    rw [h4] at h3
    rw [h3] at h1
    simp only [List.length_cons, List.length_nil] at h1
    omega
  have hfinal : dqNeedle cn <:+: ((splitlines c).take 50).flatten := by
    rw [hcc, hfl]
    exact infix_take_flatten _ hneedle hlast hsplitP
  have hclass2 : file_has_class_in_first_lines (splitlines c) cn = true :=
    (file_has_class_iff _ _).mpr (Or.inl hfinal)
  simp [decide_outcome, hclass2]

/-! Lemmas about the per-locale file loop. -/

theorem filesLoop_isDir : ∀ (tgs : List Target) (fs : FS) (loc : String) (dry : Bool),
    (filesLoop fs loc tgs dry).fs.isDir = fs.isDir
  | [], _, _, _ => rfl
  | tg :: rest, fs, loc, dry => by
    simp only [filesLoop]
    rw [filesLoop_isDir rest _ loc dry, ensure_link_isDir]

theorem filesLoop_writes_sublist : ∀ (tgs : List Target) (fs : FS) (loc : String) (dry : Bool),
    List.Sublist (filesLoop fs loc tgs dry).writes (tgs.map (fun tg => tg.path))
  | [], _, _, _ => List.nil_sublist _
  | tg :: rest, fs, loc, dry => by
    simp only [filesLoop, List.map_cons]
    exact List.Sublist.append (ensure_writes_sublist fs tg.path tg.cn tg.href tg.text dry)
      (filesLoop_writes_sublist rest _ loc dry)

theorem filesLoop_read_preserve : ∀ (tgs : List Target) (fs : FS) (loc : String)
    (dry : Bool) (q : FPath), q ∉ (filesLoop fs loc tgs dry).writes →
    (filesLoop fs loc tgs dry).fs.read q = fs.read q
  | [], _, _, _, _, _ => rfl
  | tg :: rest, fs, loc, dry, q, hq => by
    simp only [filesLoop, List.mem_append] at hq
    push_neg at hq
    simp only [filesLoop]
    rw [filesLoop_read_preserve rest _ loc dry q hq.2,
      ensure_link_read_preserve hq.1]

theorem filesLoop_dry_fs : ∀ (tgs : List Target) (fs : FS) (loc : String),
    (filesLoop fs loc tgs true).fs = fs
  | [], _, _ => rfl
  | tg :: rest, fs, loc => by
    simp only [filesLoop]
    rw [ensure_link_dry_fs, filesLoop_dry_fs rest fs loc]

theorem filesLoop_checked : ∀ (tgs : List Target) (fs : FS) (loc : String) (dry : Bool),
    (filesLoop fs loc tgs dry).checked = tgs.length
  | [], _, _, _ => rfl
  | tg :: rest, fs, loc, dry => by
    simp only [filesLoop, List.length_cons]
    rw [filesLoop_checked rest _ loc dry]
    omega

theorem ensure_link_msg_form (fs : FS) (p : FPath) (cn href text : Str) (dry : Bool) :
    ∃ st, st ∈ statusStrings ∧
      (ensure_link_in_file fs p cn href text dry).2.2 = st ++ ": ".data ++ pathStr p := by
  unfold ensure_link_in_file
  cases decide_outcome (fs.read p) cn href text with
  | skipMissing => exact ⟨"SKIP (missing)".data, by simp [statusStrings], rfl⟩
  | okPresent => exact ⟨"OK (already present)".data, by simp [statusStrings], rfl⟩
  | warnNoAnchor =>
      exact ⟨"WARN (anchor not found, no change)".data, by simp [statusStrings], rfl⟩
  | update c =>
    cases dry with
    | true => exact ⟨"DRY-RUN would update".data, by simp [statusStrings], rfl⟩
    | false => exact ⟨"UPDATED".data, by simp [statusStrings], rfl⟩

theorem filesLoop_printed_form : ∀ (tgs : List Target) (fs : FS) (loc : String) (dry : Bool),
    ∀ l ∈ (filesLoop fs loc tgs dry).printed, ∃ st p, st ∈ statusStrings ∧
      l = ("[" ++ loc ++ "] ").data ++ (st ++ ": ".data ++ pathStr p)
  | [], _, _, _, l, hl => by simp [filesLoop] at hl
  | tg :: rest, fs, loc, dry, l, hl => by
    simp only [filesLoop, List.mem_cons] at hl
    rcases hl with rfl | hl
    · obtain ⟨st, hst, hmsg⟩ := ensure_link_msg_form fs tg.path tg.cn tg.href tg.text dry
      exact ⟨st, tg.path, hst, by rw [reportLine, hmsg]⟩
    · exact filesLoop_printed_form rest _ loc dry l hl

theorem filesLoop_dry_match : ∀ (tgs : List Target) (fs fsd : FS) (loc : String),
    (∀ tg ∈ tgs, fsd.read tg.path = fs.read tg.path) →
    ((tgs.map (fun tg => tg.path)).Nodup) →
    List.Forall₂ dryMatch (filesLoop fs loc tgs false).printed
        (filesLoop fsd loc tgs true).printed ∧
      (filesLoop fsd loc tgs true).checked = (filesLoop fs loc tgs false).checked ∧
      (filesLoop fsd loc tgs true).changed = (filesLoop fs loc tgs false).changed
  | [], _, _, _, _, _ => ⟨List.Forall₂.nil, rfl, rfl⟩
  | tg :: rest, fs, fsd, loc, hread, hnd => by
    have hr := hread tg (List.mem_cons_self tg rest)
    have hnd' : (rest.map (fun tg => tg.path)).Nodup := (List.nodup_cons.mp hnd).2
    have hhead : tg.path ∉ rest.map (fun tg => tg.path) := (List.nodup_cons.mp hnd).1
    have hrest : ∀ tg' ∈ rest,
        ((filesLoop fsd loc [] true).fs).read tg'.path = fsd.read tg'.path := by
      intro tg' _; rfl
    have hread' : ∀ tg' ∈ rest,
        ((ensure_link_in_file fsd tg.path tg.cn tg.href tg.text true).1).read tg'.path
          = ((ensure_link_in_file fs tg.path tg.cn tg.href tg.text false).1).read tg'.path := by
      intro tg' htg'
      have hne : tg'.path ≠ tg.path := by
        intro he
        exact hhead (he ▸ List.mem_map_of_mem (fun tg => tg.path) htg')
      have h1 : ((ensure_link_in_file fs tg.path tg.cn tg.href tg.text false).1).read tg'.path
          = fs.read tg'.path := by
        apply ensure_link_read_preserve
        intro hmem
        exact hne (List.mem_singleton.mp
          ((ensure_writes_sublist fs tg.path tg.cn tg.href tg.text false).subset hmem))
      rw [ensure_link_dry_fs, h1]
      exact hread tg' (List.mem_cons_of_mem tg htg')
    obtain ⟨hf, hck, hch⟩ :=
      filesLoop_dry_match rest
        (ensure_link_in_file fs tg.path tg.cn tg.href tg.text false).1
        (ensure_link_in_file fsd tg.path tg.cn tg.href tg.text true).1 loc
        hread' hnd'
    rw [ensure_link_dry_fs] at hf hck hch
    constructor
    · simp only [filesLoop]
      refine List.Forall₂.cons ?_ ?_
      · rcases ensure_link_dry_msg hr with hmsg | ⟨hreal, hdry⟩
        · exact Or.inl (by rw [reportLine, reportLine, hmsg])
        · refine Or.inr ⟨("[" ++ loc ++ "] ").data, pathStr tg.path, ?_, ?_⟩
          · rw [reportLine, hreal]; simp [List.append_assoc]
          · rw [reportLine, hdry]; simp [List.append_assoc]
      · rw [ensure_link_dry_fs]
        exact hf
    · constructor
      · simp only [filesLoop]
        rw [ensure_link_dry_fs, hck]
      · simp only [filesLoop]
        rw [ensure_link_dry_fs, hch, ensure_link_changed_congr hr false true]

theorem filesLoop_settled : ∀ (tgs : List Target) (fs : FS) (loc : String),
    ((tgs.map (fun tg => tg.path)).Nodup) →
    (∀ tg ∈ tgs, windowOK (fs.read tg.path) tg.cn = true) →
    (∀ tg ∈ tgs, noB (link_body tg.cn tg.href tg.text) = true) →
    ∀ tg ∈ tgs, ∀ c,
      decide_outcome ((filesLoop fs loc tgs false).fs.read tg.path) tg.cn tg.href tg.text
        ≠ Outcome.update c
  | [], _, _, _, _, _, tg, htg => by simp at htg
  | tg :: rest, fs, loc, hnd, hwin, hnoB, tg', htg' => by
    have hnd' : (rest.map (fun t => t.path)).Nodup := (List.nodup_cons.mp hnd).2
    have hhead : tg.path ∉ rest.map (fun t => t.path) := (List.nodup_cons.mp hnd).1
    have hpres : ∀ q ∉ rest.map (fun t => t.path),
        (filesLoop (ensure_link_in_file fs tg.path tg.cn tg.href tg.text false).1
          loc rest false).fs.read q
        = (ensure_link_in_file fs tg.path tg.cn tg.href tg.text false).1.read q := by
      intro q hq
      apply filesLoop_read_preserve
      intro hmem
      exact hq ((filesLoop_writes_sublist rest _ loc false).subset hmem)
    rcases List.mem_cons.mp htg' with rfl | hmem
    · intro c
      simp only [filesLoop]
      rw [hpres tg'.path hhead]
      cases hread : fs.read tg'.path with
      | none =>
        have ho : decide_outcome (fs.read tg'.path) tg'.cn tg'.href tg'.text
            = Outcome.skipMissing := by rw [hread]; rfl
        obtain ⟨h1, _, _⟩ := ensure_link_of_outcome_nonupdate
          false (fun c0 h => by rw [ho] at h; cases h)
        rw [h1, ho]
        simp
      | some raw =>
        cases ho : decide_outcome (some raw) tg'.cn tg'.href tg'.text with
        | update c0 =>
          have ho' : decide_outcome (fs.read tg'.path) tg'.cn tg'.href tg'.text
              = Outcome.update c0 := by rw [hread]; exact ho
          obtain ⟨h1, _, _⟩ := ensure_link_of_outcome_update false ho'
          have h1' : (ensure_link_in_file fs tg'.path tg'.cn tg'.href tg'.text false).1
              = writeFile fs tg'.path c0 := by rw [h1]; simp
          rw [h1']
          rw [show (writeFile fs tg'.path c0).read tg'.path = some c0 by simp [writeFile]]
          have hw := hwin tg' (List.mem_cons_self tg' rest)
          rw [hread] at hw
          rw [decide_outcome_update_settled
            (hnoB tg' (List.mem_cons_self tg' rest)) ho hw]
          simp
        | skipMissing =>
          have ho' : decide_outcome (fs.read tg'.path) tg'.cn tg'.href tg'.text
              = Outcome.skipMissing := by rw [hread]; exact ho
          obtain ⟨h1, _, _⟩ := ensure_link_of_outcome_nonupdate
            false (fun c0 h => by rw [ho'] at h; cases h)
          rw [h1, hread, ho]
          simp
        | okPresent =>
          have ho' : decide_outcome (fs.read tg'.path) tg'.cn tg'.href tg'.text
              = Outcome.okPresent := by rw [hread]; exact ho
          obtain ⟨h1, _, _⟩ := ensure_link_of_outcome_nonupdate
            false (fun c0 h => by rw [ho'] at h; cases h)
          rw [h1, hread, ho]
          simp
        | warnNoAnchor =>
          have ho' : decide_outcome (fs.read tg'.path) tg'.cn tg'.href tg'.text
              = Outcome.warnNoAnchor := by rw [hread]; exact ho
          obtain ⟨h1, _, _⟩ := ensure_link_of_outcome_nonupdate
            false (fun c0 h => by rw [ho'] at h; cases h)
          rw [h1, hread, ho]
          simp
    · have hq : ∀ tg2 ∈ rest,
          (ensure_link_in_file fs tg.path tg.cn tg.href tg.text false).1.read tg2.path
            = fs.read tg2.path := by
        intro tg2 htg2
        apply ensure_link_read_preserve
        intro hmem2
        have : tg2.path = tg.path := List.mem_singleton.mp
          ((ensure_writes_sublist fs tg.path tg.cn tg.href tg.text false).subset hmem2)
        exact hhead (this ▸ List.mem_map_of_mem (fun t => t.path) htg2)
      have hwin' : ∀ tg2 ∈ rest,
          windowOK ((ensure_link_in_file fs tg.path tg.cn tg.href tg.text false).1.read
            tg2.path) tg2.cn = true := by
        intro tg2 htg2
        rw [hq tg2 htg2]
        exact hwin tg2 (List.mem_cons_of_mem tg htg2)
      have hnoB' : ∀ tg2 ∈ rest, noB (link_body tg2.cn tg2.href tg2.text) = true :=
        fun tg2 htg2 => hnoB tg2 (List.mem_cons_of_mem tg htg2)
      intro c
      simp only [filesLoop]
      exact filesLoop_settled rest _ loc hnd' hwin' hnoB' tg' hmem c

theorem filesLoop_nonupdate_noop : ∀ (tgs : List Target) (fs : FS) (loc : String) (dry : Bool),
    (∀ tg ∈ tgs, ∀ c,
      decide_outcome (fs.read tg.path) tg.cn tg.href tg.text ≠ Outcome.update c) →
    (filesLoop fs loc tgs dry).fs = fs ∧ (filesLoop fs loc tgs dry).changed = 0 ∧
      (filesLoop fs loc tgs dry).writes = []
  | [], _, _, _, _ => ⟨rfl, rfl, rfl⟩
  | tg :: rest, fs, loc, dry, h => by
    obtain ⟨h1, h2, h3⟩ := ensure_link_of_outcome_nonupdate dry
      (h tg (List.mem_cons_self tg rest))
    obtain ⟨g1, g2, g3⟩ := filesLoop_nonupdate_noop rest
      (ensure_link_in_file fs tg.path tg.cn tg.href tg.text dry).1 loc dry
      (by
        intro tg2 htg2 c
        rw [h1]
        exact h tg2 (List.mem_cons_of_mem tg htg2) c)
    simp only [filesLoop]
    rw [h1] at g1 g2 g3
    rw [h1, h2, h3, g1, g2, g3]
    exact ⟨rfl, by simp, rfl⟩

/-! Lemmas about the locale loop of `main`. -/

theorem localeStep_dir_none {fs : FS} {root : FPath} {loc : String}
    (h : fs.isDir (root ++ [loc]) = false) (texts : LocaleTexts) (dry : Bool) :
    localeStep fs root loc texts dry =
      ⟨fs, [("SKIP (locale folder not available): " ++ loc).data], 0, 0, []⟩ := by
  unfold localeStep resolve_locale_dir
  simp [h]

theorem localeStep_dir_some {fs : FS} {root : FPath} {loc : String}
    (h : fs.isDir (root ++ [loc]) = true) (texts : LocaleTexts) (dry : Bool) :
    localeStep fs root loc texts dry = filesLoop fs loc (localeTargets root loc texts) dry := by
  unfold localeStep resolve_locale_dir
  simp [h]

theorem localeStep_isDir (fs : FS) (root : FPath) (loc : String) (texts : LocaleTexts)
    (dry : Bool) : (localeStep fs root loc texts dry).fs.isDir = fs.isDir := by
  by_cases h : fs.isDir (root ++ [loc]) = true
  · rw [localeStep_dir_some h]
    exact filesLoop_isDir _ _ _ _
  · rw [localeStep_dir_none (by simpa using h)]

theorem mainLoop_isDir : ∀ (entries : List (String × LocaleTexts)) (fs : FS)
    (root : FPath) (dry : Bool), (mainLoop fs root dry entries).fs.isDir = fs.isDir
  | [], _, _, _ => rfl
  | e :: rest, fs, root, dry => by
    simp only [mainLoop]
    rw [mainLoop_isDir rest _ root dry, localeStep_isDir]

theorem mainLoop_dry_fs : ∀ (entries : List (String × LocaleTexts)) (fs : FS)
    (root : FPath), (mainLoop fs root true entries).fs = fs
  | [], _, _ => rfl
  | e :: rest, fs, root => by
    simp only [mainLoop]
    by_cases h : fs.isDir (root ++ [e.1]) = true
    · rw [localeStep_dir_some h, filesLoop_dry_fs, mainLoop_dry_fs rest fs root]
    · rw [localeStep_dir_none (by simpa using h)]
      exact mainLoop_dry_fs rest fs root

theorem localeStep_writes_sublist (fs : FS) (root : FPath) (loc : String)
    (texts : LocaleTexts) (dry : Bool) :
    List.Sublist (localeStep fs root loc texts dry).writes
      ((localeTargets root loc texts).map (fun tg => tg.path)) := by
  by_cases h : fs.isDir (root ++ [loc]) = true
  · rw [localeStep_dir_some h]
    exact filesLoop_writes_sublist _ _ _ _
  · rw [localeStep_dir_none (by simpa using h)]
    exact List.nil_sublist _

theorem mainLoop_writes_sublist : ∀ (entries : List (String × LocaleTexts)) (fs : FS)
    (root : FPath) (dry : Bool),
    List.Sublist (mainLoop fs root dry entries).writes
      ((allTargets root entries).map (fun tg => tg.path))
  | [], _, _, _ => List.nil_sublist _
  | e :: rest, fs, root, dry => by
    simp only [mainLoop, allTargets, List.flatMap_cons, List.map_append]
    exact List.Sublist.append (localeStep_writes_sublist fs root e.1 e.2 dry)
      (mainLoop_writes_sublist rest _ root dry)

theorem localeStep_read_preserve {fs : FS} {root : FPath} {loc : String}
    {texts : LocaleTexts} {dry : Bool} {q : FPath}
    (hq : q ∉ (localeStep fs root loc texts dry).writes) :
    (localeStep fs root loc texts dry).fs.read q = fs.read q := by
  by_cases h : fs.isDir (root ++ [loc]) = true
  · rw [localeStep_dir_some h] at hq ⊢
    exact filesLoop_read_preserve _ _ _ _ _ hq
  · rw [localeStep_dir_none (by simpa using h)]

theorem mainLoop_read_preserve : ∀ (entries : List (String × LocaleTexts)) (fs : FS)
    (root : FPath) (dry : Bool) (q : FPath),
    q ∉ (mainLoop fs root dry entries).writes →
    (mainLoop fs root dry entries).fs.read q = fs.read q
  | [], _, _, _, _, _ => rfl
  | e :: rest, fs, root, dry, q, hq => by
    simp only [mainLoop, List.mem_append] at hq
    push_neg at hq
    simp only [mainLoop]
    rw [mainLoop_read_preserve rest _ root dry q hq.2, localeStep_read_preserve hq.1]

theorem mainLoop_checked : ∀ (entries : List (String × LocaleTexts)) (fs : FS)
    (root : FPath) (dry : Bool),
    (mainLoop fs root dry entries).checked
      = 2 * entries.countP (fun e => fs.isDir (root ++ [e.1]))
  | [], _, _, _ => rfl
  | e :: rest, fs, root, dry => by
    simp only [mainLoop, List.countP_cons]
    have hrec := mainLoop_checked rest (localeStep fs root e.1 e.2 dry).fs root dry
    have hdir : (localeStep fs root e.1 e.2 dry).fs.isDir = fs.isDir :=
      localeStep_isDir fs root e.1 e.2 dry
    rw [hdir] at hrec
    rw [hrec]
    by_cases h : fs.isDir (root ++ [e.1]) = true
    · rw [localeStep_dir_some h]
      rw [filesLoop_checked]
      simp [localeTargets, h]
      omega
    · rw [localeStep_dir_none (by simpa using h)]
      simp only [Bool.not_eq_true] at h
      simp [h]

theorem mainLoop_printed_form : ∀ (entries : List (String × LocaleTexts)),
    (∀ e ∈ entries, e ∈ PRIVACY_NOTICE_LINKS) →
    ∀ (fs : FS) (root : FPath) (dry : Bool),
    ∀ l ∈ (mainLoop fs root dry entries).printed, isPerFileLine l ∨ isLocaleSkipLine l
  | [], _, _, _, _, l, hl => by simp [mainLoop] at hl
  | e :: rest, hsub, fs, root, dry, l, hl => by
    simp only [mainLoop, List.mem_append] at hl
    rcases hl with hl | hl
    · by_cases h : fs.isDir (root ++ [e.1]) = true
      · rw [localeStep_dir_some h] at hl
        obtain ⟨st, p, hst, hform⟩ := filesLoop_printed_form _ _ _ _ l hl
        left
        refine ⟨e.1, st, p, ⟨e.2, ?_⟩, hst, by rw [hform]; simp [List.append_assoc]⟩
        have := hsub e (List.mem_cons_self e rest)
        simpa using this
      · rw [localeStep_dir_none (by simpa using h)] at hl
        simp only [List.mem_singleton] at hl
        right
        refine ⟨e.1, ⟨e.2, ?_⟩, hl⟩
        have := hsub e (List.mem_cons_self e rest)
        simpa using this
    · exact mainLoop_printed_form rest
        (fun x hx => hsub x (List.mem_cons_of_mem e hx)) _ root dry l hl

theorem forall2_append {α β : Type} {R : α → β → Prop} :
    ∀ {l1 : List α} {l2 : List β} {l3 : List α} {l4 : List β},
    List.Forall₂ R l1 l2 → List.Forall₂ R l3 l4 → List.Forall₂ R (l1 ++ l3) (l2 ++ l4)
  | _, _, _, _, List.Forall₂.nil, h2 => h2
  | _, _, _, _, List.Forall₂.cons h t, h2 => List.Forall₂.cons h (forall2_append t h2)

theorem mainLoop_dry_match : ∀ (entries : List (String × LocaleTexts)) (fs fsd : FS)
    (root : FPath),
    fsd.isDir = fs.isDir →
    (∀ tg ∈ allTargets root entries, fsd.read tg.path = fs.read tg.path) →
    ((allTargets root entries).map (fun tg => tg.path)).Nodup →
    List.Forall₂ dryMatch (mainLoop fs root false entries).printed
        (mainLoop fsd root true entries).printed ∧
      (mainLoop fsd root true entries).checked = (mainLoop fs root false entries).checked ∧
      (mainLoop fsd root true entries).changed = (mainLoop fs root false entries).changed
  | [], _, _, _, _, _, _ => ⟨List.Forall₂.nil, rfl, rfl⟩
  | e :: rest, fs, fsd, root, hIs, hread, hnd => by
    have hall : allTargets root (e :: rest)
        = localeTargets root e.1 e.2 ++ allTargets root rest := by
      simp [allTargets, List.flatMap_cons]
    rw [hall] at hread hnd
    rw [List.map_append, List.nodup_append] at hnd
    obtain ⟨hnd1, hnd2, hdisj⟩ := hnd
    by_cases h : fs.isDir (root ++ [e.1]) = true
    · have hd : fsd.isDir (root ++ [e.1]) = true := by rw [hIs]; exact h
      have hreadloc : ∀ tg ∈ localeTargets root e.1 e.2, fsd.read tg.path = fs.read tg.path :=
        fun tg htg => hread tg (List.mem_append.mpr (Or.inl htg))
      obtain ⟨hf1, hck1, hch1⟩ :=
        filesLoop_dry_match (localeTargets root e.1 e.2) fs fsd e.1 hreadloc hnd1
      have hIs1 : fsd.isDir = (filesLoop fs e.1 (localeTargets root e.1 e.2) false).fs.isDir := by
        rw [filesLoop_isDir]; exact hIs
      have hread1 : ∀ tg ∈ allTargets root rest,
          fsd.read tg.path
            = (filesLoop fs e.1 (localeTargets root e.1 e.2) false).fs.read tg.path := by
        intro tg htg
        have hp : tg.path ∉ (filesLoop fs e.1 (localeTargets root e.1 e.2) false).writes := by
          intro hmem
          exact hdisj ((filesLoop_writes_sublist _ _ _ _).subset hmem)
            (List.mem_map_of_mem _ htg)
        rw [filesLoop_read_preserve _ _ _ _ _ hp]
        exact hread tg (List.mem_append.mpr (Or.inr htg))
      obtain ⟨hf2, hck2, hch2⟩ := mainLoop_dry_match rest
        (filesLoop fs e.1 (localeTargets root e.1 e.2) false).fs fsd root hIs1 hread1 hnd2
      refine ⟨?_, ?_, ?_⟩
      · simp only [mainLoop]
        rw [localeStep_dir_some h, localeStep_dir_some hd, filesLoop_dry_fs]
        exact forall2_append hf1 hf2
      · simp only [mainLoop]
        rw [localeStep_dir_some h, localeStep_dir_some hd, filesLoop_dry_fs, hck1, hck2]
      · simp only [mainLoop]
        rw [localeStep_dir_some h, localeStep_dir_some hd, filesLoop_dry_fs, hch1, hch2]
    · have h' : fs.isDir (root ++ [e.1]) = false := by simpa using h
      have hd' : fsd.isDir (root ++ [e.1]) = false := by rw [hIs]; exact h'
      have hread1 : ∀ tg ∈ allTargets root rest, fsd.read tg.path = fs.read tg.path :=
        fun tg htg => hread tg (List.mem_append.mpr (Or.inr htg))
      obtain ⟨hf2, hck2, hch2⟩ := mainLoop_dry_match rest fs fsd root hIs hread1 hnd2
      refine ⟨?_, ?_, ?_⟩
      · simp only [mainLoop]
        rw [localeStep_dir_none h', localeStep_dir_none hd']
        exact List.Forall₂.cons (Or.inl rfl) hf2
      · simp only [mainLoop]
        rw [localeStep_dir_none h', localeStep_dir_none hd']
        simpa using hck2
      · simp only [mainLoop]
        rw [localeStep_dir_none h', localeStep_dir_none hd']
        simpa using hch2

theorem mainLoop_settled : ∀ (entries : List (String × LocaleTexts)) (fs : FS)
    (root : FPath),
    ((allTargets root entries).map (fun tg => tg.path)).Nodup →
    (∀ tg ∈ allTargets root entries, windowOK (fs.read tg.path) tg.cn = true) →
    (∀ tg ∈ allTargets root entries, noB (link_body tg.cn tg.href tg.text) = true) →
    ∀ e ∈ entries, fs.isDir (root ++ [e.1]) = true →
    ∀ tg ∈ localeTargets root e.1 e.2, ∀ c,
      decide_outcome ((mainLoop fs root false entries).fs.read tg.path) tg.cn tg.href tg.text
        ≠ Outcome.update c
  | [], _, _, _, _, _, e', he' => by simp at he'
  | e :: rest, fs, root, hnd, hwin, hnoB, e', he' => by
    intro hdir' tg htg c
    have hall : allTargets root (e :: rest)
        = localeTargets root e.1 e.2 ++ allTargets root rest := by
      simp [allTargets, List.flatMap_cons]
    rw [hall] at hwin hnoB hnd
    rw [List.map_append, List.nodup_append] at hnd
    obtain ⟨hnd1, hnd2, hdisj⟩ := hnd
    by_cases h : fs.isDir (root ++ [e.1]) = true
    · have hwinloc : ∀ tg2 ∈ localeTargets root e.1 e.2,
          windowOK (fs.read tg2.path) tg2.cn = true :=
        fun tg2 htg2 => hwin tg2 (List.mem_append.mpr (Or.inl htg2))
      have hnoBloc : ∀ tg2 ∈ localeTargets root e.1 e.2,
          noB (link_body tg2.cn tg2.href tg2.text) = true :=
        fun tg2 htg2 => hnoB tg2 (List.mem_append.mpr (Or.inl htg2))
      have hq : ∀ tg2 ∈ allTargets root rest,
          (filesLoop fs e.1 (localeTargets root e.1 e.2) false).fs.read tg2.path
            = fs.read tg2.path := by
        intro tg2 htg2
        apply filesLoop_read_preserve
        intro hmem
        exact hdisj ((filesLoop_writes_sublist _ _ _ _).subset hmem)
          (List.mem_map_of_mem _ htg2)
      rcases List.mem_cons.mp he' with rfl | hmem
      · have hp : tg.path ∉ (mainLoop
            (filesLoop fs e'.1 (localeTargets root e'.1 e'.2) false).fs root false rest).writes := by
          intro hmem2
          exact hdisj (List.mem_map_of_mem _ htg)
            ((mainLoop_writes_sublist _ _ _ _).subset hmem2)
        simp only [mainLoop]
        rw [localeStep_dir_some h]
        rw [mainLoop_read_preserve _ _ _ _ _ hp]
        exact filesLoop_settled (localeTargets root e'.1 e'.2) fs e'.1 hnd1 hwinloc hnoBloc
          tg htg c
      · have hwin1 : ∀ tg2 ∈ allTargets root rest,
            windowOK ((filesLoop fs e.1 (localeTargets root e.1 e.2) false).fs.read tg2.path)
              tg2.cn = true := by
          intro tg2 htg2
          rw [hq tg2 htg2]
          exact hwin tg2 (List.mem_append.mpr (Or.inr htg2))
        have hnoB1 : ∀ tg2 ∈ allTargets root rest,
            noB (link_body tg2.cn tg2.href tg2.text) = true :=
          fun tg2 htg2 => hnoB tg2 (List.mem_append.mpr (Or.inr htg2))
        have hdir1 : (filesLoop fs e.1 (localeTargets root e.1 e.2) false).fs.isDir
            (root ++ [e'.1]) = true := by
          rw [filesLoop_isDir]; exact hdir'
        simp only [mainLoop]
        rw [localeStep_dir_some h]
        exact mainLoop_settled rest _ root hnd2 hwin1 hnoB1 e' hmem hdir1 tg htg c
    · have h' : fs.isDir (root ++ [e.1]) = false := by simpa using h
      rcases List.mem_cons.mp he' with rfl | hmem
      · rw [h'] at hdir'
        cases hdir'
      · have hwin1 : ∀ tg2 ∈ allTargets root rest,
            windowOK (fs.read tg2.path) tg2.cn = true :=
          fun tg2 htg2 => hwin tg2 (List.mem_append.mpr (Or.inr htg2))
        have hnoB1 : ∀ tg2 ∈ allTargets root rest,
            noB (link_body tg2.cn tg2.href tg2.text) = true :=
          fun tg2 htg2 => hnoB tg2 (List.mem_append.mpr (Or.inr htg2))
        simp only [mainLoop]
        rw [localeStep_dir_none h']
        exact mainLoop_settled rest fs root hnd2 hwin1 hnoB1 e' hmem hdir' tg htg c

theorem mainLoop_nonupdate_noop : ∀ (entries : List (String × LocaleTexts)) (fs : FS)
    (root : FPath) (dry : Bool),
    (∀ e ∈ entries, fs.isDir (root ++ [e.1]) = true →
      ∀ tg ∈ localeTargets root e.1 e.2, ∀ c,
        decide_outcome (fs.read tg.path) tg.cn tg.href tg.text ≠ Outcome.update c) →
    (mainLoop fs root dry entries).fs = fs ∧ (mainLoop fs root dry entries).changed = 0 ∧
      (mainLoop fs root dry entries).writes = []
  | [], _, _, _, _ => ⟨rfl, rfl, rfl⟩
  | e :: rest, fs, root, dry, h => by
    obtain ⟨f2, c2, w2⟩ := mainLoop_nonupdate_noop rest fs root dry
      (fun e2 he2 => h e2 (List.mem_cons_of_mem e he2))
    by_cases hdir : fs.isDir (root ++ [e.1]) = true
    · obtain ⟨f1, c1, w1⟩ := filesLoop_nonupdate_noop (localeTargets root e.1 e.2) fs e.1 dry
        (h e (List.mem_cons_self e rest) hdir)
      refine ⟨?_, ?_, ?_⟩
      · simp only [mainLoop]
        rw [localeStep_dir_some hdir, f1, f2]
      · simp only [mainLoop]
        rw [localeStep_dir_some hdir, f1, c2, c1]
      · simp only [mainLoop]
        rw [localeStep_dir_some hdir, f1, w2, w1]
        rfl
    · have h' : fs.isDir (root ++ [e.1]) = false := by simpa using hdir
      refine ⟨?_, ?_, ?_⟩
      · simp only [mainLoop]
        rw [localeStep_dir_none h', f2]
      · simp only [mainLoop]
        rw [localeStep_dir_none h', c2]
      · simp only [mainLoop]
        rw [localeStep_dir_none h', w2]
        rfl

/-! Facts about the static table and `main`. -/

theorem allTargets_paths_eq : ∀ (entries : List (String × LocaleTexts)) (root : FPath),
    (allTargets root entries).map (fun tg => tg.path)
      = (entries.flatMap (fun e => [[e.1, "firefox_privacy_notice.md"],
          [e.1, "firefox_privacy_notice_preview.md"]])).map (fun s => root ++ s)
  | [], _ => rfl
  | e :: rest, root => by
    have ih := allTargets_paths_eq rest root
    simp only [allTargets, List.flatMap_cons, List.map_append] at ih ⊢
    rw [ih]
    rfl

theorem targetPaths_nodup (root : FPath) :
    ((allTargets root PRIVACY_NOTICE_LINKS).map (fun tg => tg.path)).Nodup := by
  rw [allTargets_paths_eq]
  apply List.Nodup.map
  · intro a b hab
    exact List.append_cancel_left hab
  · decide

theorem allTargets_length (root : FPath) :
    ((allTargets root PRIVACY_NOTICE_LINKS).map (fun tg => tg.path)).length = 28 := by
  rw [allTargets_paths_eq, List.length_map]
  decide

theorem table_noB (root : FPath) :
    ∀ tg ∈ allTargets root PRIVACY_NOTICE_LINKS,
      noB (link_body tg.cn tg.href tg.text) = true := by
  have hall : PRIVACY_NOTICE_LINKS.all (fun e =>
      noB (link_body ("link-next-pn".data) HREF_NEXT e.2.link_to_preview.data)
      && noB (link_body ("link-current-pn".data) HREF_CURRENT e.2.link_to_current.data))
      = true := by decide
  intro tg htg
  simp only [allTargets, List.mem_flatMap] at htg
  obtain ⟨e, he, htg⟩ := htg
  have he' := List.all_eq_true.mp hall e he
  simp only [Bool.and_eq_true] at he'
  simp only [localeTargets, List.mem_cons, List.mem_singleton] at htg
  rcases htg with rfl | rfl | h0
  · exact he'.1
  · exact he'.2
  · cases h0

theorem main_root_missing {fs : FS} {root : FPath} (h : fs.isDir root = false)
    (dry : Bool) :
    main fs root dry = ⟨2, fs, ["ERROR: Not a directory: ".data ++ pathStr root],
      0, 0, []⟩ := by
  unfold main
  rw [if_pos h]

theorem main_root_ok {fs : FS} {root : FPath} (h : fs.isDir root = true) (dry : Bool) :
    main fs root dry = ⟨0, (mainLoop fs root dry PRIVACY_NOTICE_LINKS).fs,
      (mainLoop fs root dry PRIVACY_NOTICE_LINKS).printed
        ++ [summaryLine (mainLoop fs root dry PRIVACY_NOTICE_LINKS).checked
              (mainLoop fs root dry PRIVACY_NOTICE_LINKS).changed]
        ++ (if dry then [dryNotice] else []),
      (mainLoop fs root dry PRIVACY_NOTICE_LINKS).checked,
      (mainLoop fs root dry PRIVACY_NOTICE_LINKS).changed,
      (mainLoop fs root dry PRIVACY_NOTICE_LINKS).writes⟩ := by
  unfold main
  rw [if_neg (by simp [h])]

theorem filesLoop_dry_writes : ∀ (tgs : List Target) (fs : FS) (loc : String),
    (filesLoop fs loc tgs true).writes = []
  | [], _, _ => rfl
  | tg :: rest, fs, loc => by
    simp only [filesLoop]
    rw [ensure_writes_dry, filesLoop_dry_writes rest _ loc]
    rfl

theorem mainLoop_dry_writes : ∀ (entries : List (String × LocaleTexts)) (fs : FS)
    (root : FPath), (mainLoop fs root true entries).writes = []
  | [], _, _ => rfl
  | e :: rest, fs, root => by
    simp only [mainLoop]
    rw [mainLoop_dry_writes rest _ root]
    by_cases h : fs.isDir (root ++ [e.1]) = true
    · rw [localeStep_dir_some h, filesLoop_dry_writes]
      rfl
    · rw [localeStep_dir_none (by simpa using h)]
      rfl

theorem mainLoop_writes_sublist_cand : ∀ (entries : List (String × LocaleTexts))
    (fs : FS) (root : FPath),
    List.Sublist (mainLoop fs root false entries).writes
      ((entries.filter (fun e => fs.isDir (root ++ [e.1]))).flatMap
        (fun e => [root ++ [e.1, "firefox_privacy_notice.md"],
                   root ++ [e.1, "firefox_privacy_notice_preview.md"]]))
  | [], _, _ => List.nil_sublist _
  | e :: rest, fs, root => by
    simp only [mainLoop]
    by_cases h : fs.isDir (root ++ [e.1]) = true
    · have ih := mainLoop_writes_sublist_cand rest
        (filesLoop fs e.1 (localeTargets root e.1 e.2) false).fs root
      rw [filesLoop_isDir] at ih
      rw [List.filter_cons_of_pos (by simpa using h), List.flatMap_cons,
        localeStep_dir_some h]
      exact List.Sublist.append (filesLoop_writes_sublist _ _ _ _) ih
    · have ih := mainLoop_writes_sublist_cand rest fs root
      have h' : fs.isDir (root ++ [e.1]) = false := by simpa using h
      rw [List.filter_cons_of_neg (by simp [h']), localeStep_dir_none h']
      exact ih

theorem sublist_flatMap {α β : Type} (f : α → List β) :
    ∀ {l1 l2 : List α}, List.Sublist l1 l2 →
      List.Sublist (l1.flatMap f) (l2.flatMap f) := by
  intro l1 l2 h
  induction h with
  | slnil => exact List.Sublist.refl _
  | cons a h ih =>
    rw [List.flatMap_cons]
    exact ih.trans (List.sublist_append_right _ _)
  | cons₂ a h ih =>
    rw [List.flatMap_cons, List.flatMap_cons]
    exact ih.append_left _

theorem candidates_sublist_targets (fs : FS) (root : FPath) :
    List.Sublist (allCandidatePaths fs root)
      ((allTargets root PRIVACY_NOTICE_LINKS).map (fun tg => tg.path)) := by
  rw [allTargets_paths_eq]
  unfold allCandidatePaths
  have hfs : List.Sublist
      (PRIVACY_NOTICE_LINKS.filter (fun e => fs.isDir (root ++ [e.1])))
      PRIVACY_NOTICE_LINKS :=
    List.filter_sublist PRIVACY_NOTICE_LINKS
  have h1 := sublist_flatMap
    (fun e : String × LocaleTexts => [root ++ [e.1, "firefox_privacy_notice.md"],
      root ++ [e.1, "firefox_privacy_notice_preview.md"]]) hfs
  have h2 : ((PRIVACY_NOTICE_LINKS.flatMap
      (fun e => [[e.1, "firefox_privacy_notice.md"],
        [e.1, "firefox_privacy_notice_preview.md"]])).map (fun s => root ++ s))
      = PRIVACY_NOTICE_LINKS.flatMap
        (fun e => [root ++ [e.1, "firefox_privacy_notice.md"],
          root ++ [e.1, "firefox_privacy_notice_preview.md"]]) := by
    rw [List.map_flatMap]
    rfl
  rw [h2]
  exact h1

/-! Claim theorems. -/

/-- C2: for every line sequence whose first line containing the anchor
literal is at index `i` and whose lines immediately after `i` are zero or
more blank (whitespace-only) lines followed by remaining content starting
with a non-blank line (or nothing), the insertion produces lines `0..i`
unchanged, then exactly one blank line, then the link line ending in a
line terminator, then one blank line, then the remaining content
unchanged. -/
theorem insert_block_contract (lines : List Str) (i : Nat) (link_line : Str)
    (blanks rest : List Str)
    (hanchor : find_anchor_index lines = some i)
    (hsplit : lines.drop (i + 1) = blanks ++ rest)
    (hblanks : ∀ b ∈ blanks, b.all pyIsSpace = true)
    (hrest : ∀ r, rest.head? = some r → ¬ r.all pyIsSpace = true) :
    (insert_block_after_index lines i link_line).1
      = lines.take (i + 1)
        ++ ['\n']
          :: (if link_line.getLast? = some '\n' then link_line else link_line ++ ['\n'])
          :: ['\n'] :: rest := by
  simp only [insert_block_after_index]
  rw [hsplit, dropWhile_blank_append blanks rest
    (fun b hb => (pyStrip_eq_nil_iff b).mpr (hblanks b hb))
    (fun r hr hpr => hrest r hr ((pyStrip_eq_nil_iff r).mp hpr))]

/-- Witness for C2 at a concrete input: one anchor line, two blank lines,
one content line; the link line is normalized with a trailing newline. -/
theorem insert_block_contract_witness :
    (insert_block_after_index [anchorPlain, [' ', '\n'], ['\n'], ['x', '\n']] 0 ['L']).1
      = [anchorPlain, ['\n'], ['L', '\n'], ['\n'], ['x', '\n']] := by
  have h := insert_block_contract [anchorPlain, [' ', '\n'], ['\n'], ['x', '\n']] 0 ['L']
    [[' ', '\n'], ['\n']] [['x', '\n']] (by decide) (by decide) (by decide)
    (fun r hr => by injection hr with h0; rw [← h0]; decide)
  rw [h]
  rfl

/-- C3: an existing document is treated as already linked (outcome
`okPresent`) iff the expected class attribute, in double-quote or
single-quote form, occurs within the first 50 lines of the file; the
single-quoted occurrence counts the same as the double-quoted one. -/
theorem already_linked_iff (raw cn href text : Str) :
    decide_outcome (some raw) cn href text = Outcome.okPresent ↔
      (dqNeedle cn <:+: ((splitlines raw).take 50).flatten
        ∨ sqNeedle cn <:+: ((splitlines raw).take 50).flatten) := by
  rw [← file_has_class_iff]
  simp only [decide_outcome]
  split
  next h => simp [h]
  next h =>
    simp only [Bool.not_eq_true] at h
    rw [h]
    constructor
    · intro hcontra
      split at hcontra <;> exact Outcome.noConfusion hcontra
    · intro ht
      cases ht

/-- C7: the run exits with code 2 when the root is not an existing
directory, mutating nothing; otherwise it exits with code 0, regardless of
skips or warnings. -/
theorem exit_code_contract (fs : FS) (root : FPath) (dry : Bool) :
    (fs.isDir root = false →
      (main fs root dry).exitCode = 2 ∧ (main fs root dry).fs = fs ∧
      (main fs root dry).writes = []) ∧
    (fs.isDir root = true → (main fs root dry).exitCode = 0) := by
  constructor
  · intro h
    rw [main_root_missing h]
    exact ⟨rfl, rfl, rfl⟩
  · intro h
    rw [main_root_ok h]

/-- Witness for C7: a missing root exits 2, an existing root exits 0. -/
theorem exit_code_contract_witness :
    fsNothing.isDir [] = false ∧ (main fsNothing [] false).exitCode = 2 ∧
    fsOnlyRoot.isDir [] = true ∧ (main fsOnlyRoot [] false).exitCode = 0 :=
  ⟨by decide, ((exit_code_contract fsNothing [] false).1 (by decide)).1,
   by decide, (exit_code_contract fsOnlyRoot [] false).2 (by decide)⟩

/-- C8: when the strict decode of a file's bytes fails, the file is
re-read with lossy replacement instead of the operation failing, and the
per-file processing then proceeds on the replaced text exactly as it does
for any existing file. -/
theorem decode_fallback (bytes : List Nat) (cn href text : Str)
    (h : utf8DecodeStrict bytes = none) :
    read_text_with_fallback bytes = utf8DecodeReplace bytes ∧
    decide_outcome (some (read_text_with_fallback bytes)) cn href text
      = decide_outcome (some (utf8DecodeReplace bytes)) cn href text ∧
    decide_outcome (some (read_text_with_fallback bytes)) cn href text
      ≠ Outcome.skipMissing := by
  have h1 : read_text_with_fallback bytes = utf8DecodeReplace bytes := by
    unfold read_text_with_fallback
    rw [h]
  exact ⟨h1, by rw [h1], decide_outcome_ne_skip _ _ _ _⟩

/-- Witness for C8: the byte 0xFF is not valid UTF-8; the fallback text is
one replacement character. -/
theorem decode_fallback_witness :
    utf8DecodeStrict [255] = none ∧
    read_text_with_fallback [255] = utf8DecodeReplace [255] ∧
    utf8DecodeReplace [255] = [Char.ofNat 0xFFFD] :=
  ⟨by decide, (decode_fallback [255] [] [] [] (by decide)).1, by decide⟩

theorem main_fs_ok {fs : FS} {root : FPath} (h : fs.isDir root = true) (dry : Bool) :
    (main fs root dry).fs = (mainLoop fs root dry PRIVACY_NOTICE_LINKS).fs := by
  rw [main_root_ok h]

theorem main_writes_ok {fs : FS} {root : FPath} (h : fs.isDir root = true) (dry : Bool) :
    (main fs root dry).writes = (mainLoop fs root dry PRIVACY_NOTICE_LINKS).writes := by
  rw [main_root_ok h]

theorem main_changed_ok {fs : FS} {root : FPath} (h : fs.isDir root = true) (dry : Bool) :
    (main fs root dry).changed = (mainLoop fs root dry PRIVACY_NOTICE_LINKS).changed := by
  rw [main_root_ok h]

theorem main_checked_ok {fs : FS} {root : FPath} (h : fs.isDir root = true) (dry : Bool) :
    (main fs root dry).checked = (mainLoop fs root dry PRIVACY_NOTICE_LINKS).checked := by
  rw [main_root_ok h]

/-- C1 (amended): running the linker twice on any file tree is idempotent
provided that, in every target file that would be updated, the anchor line
sits at index at most 47 (so the inserted link line lands within the
50-line detection window).  The second run then changes no file: the tree
after the second run is pointwise identical to the tree after the first,
the second run performs no write, and its changed counter is zero. -/
theorem linker_idempotent_in_window (fs : FS) (root : FPath)
    (H : allWindowOK fs root = true) :
    (∀ q, (main (main fs root false).fs root false).fs.read q
        = (main fs root false).fs.read q) ∧
    (main (main fs root false).fs root false).changed = 0 ∧
    (main (main fs root false).fs root false).writes = [] := by
  by_cases hdir : fs.isDir root = true
  · have hm1 : (main fs root false).fs = (mainLoop fs root false PRIVACY_NOTICE_LINKS).fs :=
      main_fs_ok hdir false
    have hdir1 : (mainLoop fs root false PRIVACY_NOTICE_LINKS).fs.isDir root = true := by
      rw [mainLoop_isDir]; exact hdir
    have hwin : ∀ tg ∈ allTargets root PRIVACY_NOTICE_LINKS,
        windowOK (fs.read tg.path) tg.cn = true := by
      intro tg htg
      exact List.all_eq_true.mp H tg htg
    have hsettled := mainLoop_settled PRIVACY_NOTICE_LINKS fs root
      (targetPaths_nodup root) hwin (table_noB root)
    have hnoop := mainLoop_nonupdate_noop PRIVACY_NOTICE_LINKS
      (mainLoop fs root false PRIVACY_NOTICE_LINKS).fs root false
      (by
        intro e he hdire tg htg c
        have hdire' : fs.isDir (root ++ [e.1]) = true := by
          rw [mainLoop_isDir] at hdire; exact hdire
        exact hsettled e he hdire' tg htg c)
    refine ⟨?_, ?_, ?_⟩
    · intro q
      rw [hm1, main_fs_ok hdir1 false, hnoop.1]
    · rw [hm1, main_changed_ok hdir1 false, hnoop.2.1]
    · rw [hm1, main_writes_ok hdir1 false, hnoop.2.2]
  · have h' : fs.isDir root = false := by simpa using hdir
    have h1 := main_root_missing h' false
    refine ⟨?_, ?_, ?_⟩
    · intro q
      rw [h1]
      show (main fs root false).fs.read q = fs.read q
      rw [h1]
    · rw [h1]
      show (main fs root false).changed = 0
      rw [h1]
    · rw [h1]
      show (main fs root false).writes = []
      rw [h1]

/-- Witness for C1 (amended) at a concrete tree whose single file has the
anchor on its first line. -/
theorem linker_idempotent_in_window_witness :
    allWindowOK fsShallow [] = true ∧
    (main (main fsShallow [] false).fs [] false).changed = 0 ∧
    (main (main fsShallow [] false).fs [] false).writes = [] :=
  ⟨by decide, (linker_idempotent_in_window fsShallow [] (by decide)).2.1,
    (linker_idempotent_in_window fsShallow [] (by decide)).2.2⟩

/-- Counterexample to C1 as stated: in a tree whose single file has its
anchor line at index 48, the link inserted by the first run lands outside
the 50-line detection window, so the second run inserts again: it reports
one change and the file content differs from the content after the first
run. -/
theorem idempotence_counterexample :
    (main (main fsDeep [] false).fs [] false).changed = 1 ∧
    (main (main fsDeep [] false).fs [] false).fs.read enNotice
      ≠ (main fsDeep [] false).fs.read enNotice := by
  constructor
  · decide
  · decide

/-- C5: in dry-run mode no file is ever written — the tree is returned
unchanged and the write log is empty — and the per-(locale, file) reports
correspond one-to-one to the reports of a real run on the same tree:
identical, except that `UPDATED` becomes `DRY-RUN would update`; the
checked and changed counters also agree. -/
theorem dry_run_noop_and_faithful (fs : FS) (root : FPath) :
    (main fs root true).fs = fs ∧
    (main fs root true).writes = [] ∧
    List.Forall₂ dryMatch (mainLoop fs root false PRIVACY_NOTICE_LINKS).printed
      (mainLoop fs root true PRIVACY_NOTICE_LINKS).printed ∧
    (mainLoop fs root true PRIVACY_NOTICE_LINKS).checked
      = (mainLoop fs root false PRIVACY_NOTICE_LINKS).checked ∧
    (mainLoop fs root true PRIVACY_NOTICE_LINKS).changed
      = (mainLoop fs root false PRIVACY_NOTICE_LINKS).changed := by
  obtain ⟨hf, hck, hch⟩ := mainLoop_dry_match PRIVACY_NOTICE_LINKS fs fs root rfl
    (fun tg _ => rfl) (targetPaths_nodup root)
  refine ⟨?_, ?_, hf, hck, hch⟩
  · by_cases hdir : fs.isDir root = true
    · rw [main_fs_ok hdir true]
      exact mainLoop_dry_fs _ _ _
    · have h' : fs.isDir root = false := by simpa using hdir
      rw [main_root_missing h' true]
  · by_cases hdir : fs.isDir root = true
    · rw [main_writes_ok hdir true]
      exact mainLoop_dry_writes _ _ _
    · have h' : fs.isDir root = false := by simpa using hdir
      rw [main_root_missing h' true]

/-- C4 (amended): a file whose lines nowhere contain the anchor text is
left unchanged and not counted as changed; it is reported with the warning
when the expected class is absent from the first 50 lines, and with
`OK (already present)` when the class is present (the already-linked check
runs first).  A missing file is reported as a skip with no mutation, and
the run continues: every locale of the table with an existing directory
contributes exactly its two file targets to the checked counter.  An
absent locale directory makes the locale iteration report only the
locale-skip line, with the tree unchanged, nothing checked or changed,
and no write. -/
theorem non_mutating_outcomes :
    (∀ (fs : FS) (p : FPath) (cn href text : Str) (dry : Bool) (raw : Str),
      fs.read p = some raw →
      find_anchor_index (splitlines raw) = none →
      (ensure_link_in_file fs p cn href text dry).1 = fs ∧
      (ensure_link_in_file fs p cn href text dry).2.1 = false ∧
      (file_has_class_in_first_lines (splitlines raw) cn = false →
        (ensure_link_in_file fs p cn href text dry).2.2
          = "WARN (anchor not found, no change): ".data ++ pathStr p) ∧
      (file_has_class_in_first_lines (splitlines raw) cn = true →
        (ensure_link_in_file fs p cn href text dry).2.2
          = "OK (already present): ".data ++ pathStr p)) ∧
    (∀ (fs : FS) (p : FPath) (cn href text : Str) (dry : Bool),
      fs.read p = none →
      ensure_link_in_file fs p cn href text dry
        = (fs, false, "SKIP (missing): ".data ++ pathStr p)) ∧
    (∀ (fs : FS) (root : FPath) (dry : Bool),
      (mainLoop fs root dry PRIVACY_NOTICE_LINKS).checked
        = 2 * PRIVACY_NOTICE_LINKS.countP (fun e => fs.isDir (root ++ [e.1]))) ∧
    (∀ (fs : FS) (root : FPath) (locale : String) (texts : LocaleTexts) (dry : Bool),
      fs.isDir (root ++ [locale]) = false →
      localeStep fs root locale texts dry
        = ⟨fs, [("SKIP (locale folder not available): " ++ locale).data], 0, 0, []⟩) := by
  refine ⟨?_, ?_, ?_, ?_⟩
  · intro fs p cn href text dry raw hread hanch
    by_cases hcl : file_has_class_in_first_lines (splitlines raw) cn = true
    · have ho : decide_outcome (fs.read p) cn href text = Outcome.okPresent := by
        rw [hread]
        simp only [decide_outcome]
        rw [if_pos hcl]
      have hnu := ensure_link_of_outcome_nonupdate dry
        (fun c hc => by rw [ho] at hc; cases hc)
      refine ⟨hnu.1, hnu.2.1, ?_, ?_⟩
      · intro hfalse
        rw [hcl] at hfalse
        cases hfalse
      · intro _
        unfold ensure_link_in_file
        rw [ho]
    · have hcl' : file_has_class_in_first_lines (splitlines raw) cn = false := by
        simpa using hcl
      have ho : decide_outcome (fs.read p) cn href text = Outcome.warnNoAnchor := by
        rw [hread]
        simp only [decide_outcome]
        rw [if_neg hcl, hanch]
      have hnu := ensure_link_of_outcome_nonupdate dry
        (fun c hc => by rw [ho] at hc; cases hc)
      refine ⟨hnu.1, hnu.2.1, ?_, ?_⟩
      · intro _
        unfold ensure_link_in_file
        rw [ho]
      · intro htrue
        rw [hcl'] at htrue
        cases htrue
  · intro fs p cn href text dry hread
    have ho : decide_outcome (fs.read p) cn href text = Outcome.skipMissing := by
      rw [hread]; rfl
    unfold ensure_link_in_file
    rw [ho]
  · intro fs root dry
    exact mainLoop_checked PRIVACY_NOTICE_LINKS fs root dry
  · intro fs root locale texts dry h
    exact localeStep_dir_none h texts dry

/-- Counterexample to C4 as stated: a file with no anchor line whose first
line already carries the class attribute is reported `OK (already
present)`, not a warning. -/
theorem missing_anchor_counterexample :
    find_anchor_index (splitlines linkedNoAnchorRaw) = none ∧
    (ensure_link_in_file fsLinkedNoAnchor enNotice ("link-next-pn".data) HREF_NEXT
        ("t".data) false).2.2
      = "OK (already present): ".data ++ pathStr enNotice ∧
    ("OK (already present): ".data ++ pathStr enNotice : Str)
      ≠ "WARN (anchor not found, no change): ".data ++ pathStr enNotice := by
  refine ⟨by decide, by decide, by decide⟩

/-- Witness for C4 (amended): an anchorless, unlinked file is left
unchanged and reported with the warning; a missing file is skipped; a
locale whose directory is absent is reported with the locale-skip line and
nothing else happens. -/
theorem non_mutating_outcomes_witness :
    fsNoAnchor.read enNotice = some ("hello\n".data) ∧
    find_anchor_index (splitlines ("hello\n".data)) = none ∧
    (ensure_link_in_file fsNoAnchor enNotice ("link-next-pn".data) HREF_NEXT
        ("t".data) false).1 = fsNoAnchor ∧
    (ensure_link_in_file fsNoAnchor enNotice ("link-next-pn".data) HREF_NEXT
        ("t".data) false).2.2
      = "WARN (anchor not found, no change): ".data ++ pathStr enNotice ∧
    ensure_link_in_file fsNoAnchor ["nope"] ("link-next-pn".data) HREF_NEXT
        ("t".data) false
      = (fsNoAnchor, false, "SKIP (missing): ".data ++ pathStr ["nope"]) ∧
    fsNoAnchor.isDir ["fr"] = false ∧
    localeStep fsNoAnchor [] "fr" ⟨"a", "b"⟩ false
      = ⟨fsNoAnchor, [("SKIP (locale folder not available): " ++ "fr").data],
          0, 0, []⟩ := by
  have h1 := (non_mutating_outcomes).1 fsNoAnchor enNotice ("link-next-pn".data) HREF_NEXT
    ("t".data) false ("hello\n".data) (by decide) (by decide)
  exact ⟨by decide, by decide, h1.1, h1.2.2.1 (by decide),
    (non_mutating_outcomes).2.1 fsNoAnchor ["nope"] ("link-next-pn".data) HREF_NEXT
      ("t".data) false (by decide),
    by decide,
    (non_mutating_outcomes).2.2.2 fsNoAnchor [] "fr" ⟨"a", "b"⟩ false (by decide)⟩

/-- C6: end-to-end example.  On a root containing `en` with both notice
files, where line 10 is the anchor line and no class is present in the
first 50 lines, a real run turns line 11 into a blank line, line 12 into
exactly the localized link line (class `link-next-pn` with the `/next`
href in the current notice, class `link-current-pn` with the bare href in
the preview), line 13 into a blank line, and leaves all prior and
following lines unchanged. -/
theorem end_to_end_example :
    (main fsC6 [] false).fs.read enNotice = some c6ExpectedNotice ∧
    (main fsC6 [] false).fs.read enPreview = some c6ExpectedPreview ∧
    splitlines c6ExpectedNotice
      = (splitlines c6Raw).take 10 ++ [['\n'], c6LinkNext, ['\n']]
        ++ (splitlines c6Raw).drop 10 ∧
    splitlines c6ExpectedPreview
      = (splitlines c6Raw).take 10 ++ [['\n'], c6LinkCurrent, ['\n']]
        ++ (splitlines c6Raw).drop 10 := by
  refine ⟨by decide, by decide, by decide, by decide⟩

/-- C9 (amended): on a valid root, the printed output is a sequence of
per-(locale, file) lines `[<locale>] <STATUS>: <path>` and per-locale skip
lines, followed by the summary print
`\nDone. Checked: <n> file targets. Changed: <m>.` (note the leading
newline and the words `file targets`), plus the dry-run notice line in
dry-run mode. -/
theorem report_format (fs : FS) (root : FPath) (dry : Bool)
    (h : fs.isDir root = true) :
    ∃ pre, (main fs root dry).printed
        = pre ++ [summaryLine (main fs root dry).checked (main fs root dry).changed]
          ++ (if dry then [dryNotice] else []) ∧
      ∀ l ∈ pre, isPerFileLine l ∨ isLocaleSkipLine l := by
  refine ⟨(mainLoop fs root dry PRIVACY_NOTICE_LINKS).printed, ?_, ?_⟩
  · rw [main_checked_ok h dry, main_changed_ok h dry, main_root_ok h]
  · exact fun l hl =>
      mainLoop_printed_form PRIVACY_NOTICE_LINKS (fun e he => he) fs root dry l hl

/-- Witness for C9 (amended) on a tree with a root and no locale
directories. -/
theorem report_format_witness :
    fsOnlyRoot.isDir [] = true ∧
    (∃ pre, (main fsOnlyRoot [] false).printed
        = pre ++ [summaryLine (main fsOnlyRoot [] false).checked
            (main fsOnlyRoot [] false).changed]
          ++ (if false then [dryNotice] else []) ∧
      ∀ l ∈ pre, isPerFileLine l ∨ isLocaleSkipLine l) :=
  ⟨by decide, report_format fsOnlyRoot [] false (by decide)⟩

/-- Counterexample to C9 as stated: the actual summary print starts with a
newline and contains ` file targets`, so it never equals
`Done. Checked: <n>. Changed: <m>.` for any `n`, `m`. -/
theorem report_format_counterexample :
    (main fsOnlyRoot [] false).printed.getLast? = some (summaryLine 0 0) ∧
    ∀ n m : Nat, summaryLine 0 0
      ≠ "Done. Checked: ".data ++ (toString n).data ++ ". Changed: ".data
          ++ (toString m).data ++ ".".data := by
  constructor
  · decide
  · intro n m h
    have h0 : (summaryLine 0 0).head?
        = ("Done. Checked: ".data ++ (toString n).data ++ ". Changed: ".data
            ++ (toString m).data ++ ".".data).head? := by rw [h]
    rw [show ("Done. Checked: ".data ++ (toString n).data ++ ". Changed: ".data
        ++ (toString m).data ++ ".".data).head? = some 'D' from rfl] at h0
    rw [show (summaryLine 0 0).head? = some '\n' from rfl] at h0
    exact absurd h0 (by decide)

/-- C10: a real (non-dry) run writes only candidate files — the two notice
files of table locales whose directory exists — writes each path at most
once, leaves every path outside its write log (in particular every
non-candidate path) byte-identical, never changes the directory structure,
and there are at most 28 candidates. -/
theorem write_frame (fs : FS) (root : FPath) :
    (∀ p ∈ (main fs root false).writes, p ∈ allCandidatePaths fs root) ∧
    (main fs root false).writes.Nodup ∧
    (∀ q, q ∉ (main fs root false).writes →
      (main fs root false).fs.read q = fs.read q) ∧
    (∀ q, q ∉ allCandidatePaths fs root → (main fs root false).fs.read q = fs.read q) ∧
    (∀ q, (main fs root false).fs.isDir q = fs.isDir q) ∧
    (allCandidatePaths fs root).length ≤ 28 := by
  have hlen : (allCandidatePaths fs root).length ≤ 28 := by
    have hle := (candidates_sublist_targets fs root).length_le
    rw [allTargets_length] at hle
    exact hle
  by_cases hdir : fs.isDir root = true
  · have hw := main_writes_ok hdir false
    have hsubc : List.Sublist (mainLoop fs root false PRIVACY_NOTICE_LINKS).writes
        (allCandidatePaths fs root) := by
      unfold allCandidatePaths
      exact mainLoop_writes_sublist_cand PRIVACY_NOTICE_LINKS fs root
    have hmem : ∀ p ∈ (main fs root false).writes, p ∈ allCandidatePaths fs root := by
      intro p hp
      rw [hw] at hp
      exact hsubc.subset hp
    refine ⟨hmem, ?_, ?_, ?_, ?_, hlen⟩
    · rw [hw]
      exact ((hsubc.trans (candidates_sublist_targets fs root)).nodup
        (targetPaths_nodup root))
    · intro q hq
      rw [hw] at hq
      rw [main_fs_ok hdir false]
      exact mainLoop_read_preserve PRIVACY_NOTICE_LINKS fs root false q hq
    · intro q hq
      rw [main_fs_ok hdir false]
      apply mainLoop_read_preserve PRIVACY_NOTICE_LINKS fs root false q
      intro hmem2
      exact hq (hsubc.subset hmem2)
    · intro q
      rw [main_fs_ok hdir false, mainLoop_isDir]
  · have h' : fs.isDir root = false := by simpa using hdir
    have h1 := main_root_missing h' false
    refine ⟨?_, ?_, ?_, ?_, ?_, hlen⟩
    · intro p hp
      rw [h1] at hp
      cases hp
    · rw [h1]
      exact List.nodup_nil
    · intro q _
      rw [h1]
    · intro q _
      rw [h1]
    · intro q
      rw [h1]

/-- Witness for C10 on a tree with an empty candidate set. -/
theorem write_frame_witness :
    ((["x"] : FPath) ∉ (main fsOnlyRoot [] false).writes) ∧
    (main fsOnlyRoot [] false).fs.read ["x"] = fsOnlyRoot.read ["x"] ∧
    (allCandidatePaths fsOnlyRoot []).length ≤ 28 :=
  ⟨by decide, (write_frame fsOnlyRoot []).2.2.1 ["x"] (by decide),
    (write_frame fsOnlyRoot []).2.2.2.2.2⟩

end AddLinks
